import Mathlib

/-!
Verification development for the `tokenized-search` library.

The TypeScript sources are shallowly embedded over `List Char`:

* strings are lists of characters, indexed by `Nat` offsets (the library is
  designed for ASCII code identifiers; character classes of the JS regexes
  `[A-Z]`, `[a-z0-9]`, `[a-zA-Z0-9]` are the corresponding ASCII ranges, and
  `toLowerCase` is per-character ASCII lowercasing);
* JS numbers are embedded as exact fractions (`JsNum`: integer numerator,
  natural denominator, comparisons by cross-multiplication), interpreted
  into `ℚ` by `JsNum.toRat`;
* the `while` loops of the matchers are transcribed as fuel-indexed
  recursions returning `Option`, with `none` signalling fuel exhaustion;
  the top-level wrappers supply a fuel that is proved sufficient.
-/

namespace TokenizedSearch

/-- Character class of the JS regex `[A-Z]`. -/
def isUpperA (c : Char) : Bool := 'A' ≤ c && c ≤ 'Z'

/-- Character class of the JS regex `[a-z0-9]`. -/
def isLowerDigit (c : Char) : Bool := ('a' ≤ c && c ≤ 'z') || ('0' ≤ c && c ≤ '9')

/-- Character class of the JS regex `[a-zA-Z0-9]`. -/
def isAlnumA (c : Char) : Bool := isUpperA c || isLowerDigit c

/-- Length of the maximal prefix of a list whose characters satisfy `p`
(the greedy match of `p*` at the start of the list). -/
def runLen (p : Char → Bool) : List Char → Nat
  | [] => 0
  | c :: cs => if p c then runLen p cs + 1 else 0

/-- Whether the list starts with an `[A-Z]` character (the lookahead `(?=[A-Z])`). -/
def headIsUpper : List Char → Bool
  | [] => false
  | c :: _ => isUpperA c

/-- Length of the match of the first regex alternative
`[A-Z]?[a-z0-9]+(?=[A-Z])` of `nextTokenIdx` at the start of `rest`
(`none` if it does not match there).  The `+` is greedy and, because
`[a-z0-9]` and the lookahead `[A-Z]` are disjoint, backtracking cannot
produce a shorter match; if the leading optional `[A-Z]` consumed a
character, dropping it cannot help since `[a-z0-9]+` then fails at that
same uppercase character. -/
def alt1Len (rest : List Char) : Option Nat :=
  match rest with
  | [] => none
  | c :: cs =>
    if isUpperA c then
      let r := runLen isLowerDigit cs
      if 0 < r && headIsUpper (cs.drop r) then some (1 + r) else none
    else
      let r := runLen isLowerDigit rest
      if 0 < r && headIsUpper (rest.drop r) then some r else none

/-- Length of the match of the second regex alternative
`[a-zA-Z0-9]+[^A-Za-z0-9]*` (both stars greedy); it matches whenever the
head character is alphanumeric. -/
def alt2Len (rest : List Char) : Nat :=
  let a := runLen isAlnumA rest
  a + runLen (fun c => !isAlnumA c) (rest.drop a)

/-- Core of `nextTokenIdx`: `len` is the length of the whole source, `p` the
scan position and `rest` the source with its first `p` characters dropped.
The JS regex engine looks for the first position `≥ p` at which one of the
three alternatives matches:

* if the head of `rest` is alphanumeric, alternative 1 or else alternative 2
  matches at `p` itself;
* if the head is a separator, alternative 3 `[^A-Za-z0-9]*(?=[a-zA-Z0-9])`
  matches at `p` exactly when some alphanumeric character occurs later
  (the greedy separator run then stops right before it); otherwise no
  alternative matches at `p` nor at any later position, and the JS code
  returns `source.length` for a failed exec. -/
def nextTokenIdxAux (len p : Nat) : List Char → Nat
  | [] => len
  | c :: cs =>
    if isAlnumA c then
      match alt1Len (c :: cs) with
      | some k => p + k
      | none => p + alt2Len (c :: cs)
    else
      let k := runLen (fun x => !isAlnumA x) (c :: cs)
      if k < cs.length + 1 then p + k else len

/-- Embedding of `nextTokenIdx` (src/main/token.ts): the end offset of the
token that starts at or after `p`, per the regex
`(?:[A-Z]?[a-z0-9]+(?=[A-Z]))|(?:[a-zA-Z0-9]+[^A-Za-z0-9]*)|(?:[^A-Za-z0-9]*(?=[a-zA-Z0-9]))`
executed with `lastIndex = p`, returning `m.index + m[0].length`, or
`source.length` when nothing matches. -/
def nextTokenIdx (s : List Char) (p : Nat) : Nat :=
  nextTokenIdxAux s.length p (s.drop p)

/-- Embedding of JS `source.substring(a, b)` for `a ≤ b` (both already in
`[0, len]` or clamped by `take`/`drop`): the characters at offsets
`[a, min b len)`. -/
def substring (s : List Char) (a b : Nat) : List Char := (s.take b).drop a

/-- Character class of the JS regex `[^a-z0-9]` with the `i` flag, i.e. the
complement of `[a-zA-Z0-9]`; `stripNonAlnum` is `.replace(/[^a-z0-9]/gi, '')`. -/
def stripNonAlnum (l : List Char) : List Char := l.filter isAlnumA

/-- Character class of the JS regex `\p{L}\p{N}` (Unicode letters and
numbers), modelled over the ASCII fragment the library is designed for:
ASCII letters and digits. -/
def isLetterOrDigitU (c : Char) : Bool := c.isAlphanum

/-- Embedding of `normalizeToken` (src/main/normalize.ts):
`str.toLowerCase().replace(/[^\p{L}\p{N}]/gu, '')`. -/
def normalizeToken (s : List Char) : List Char :=
  (s.map Char.toLower).filter isLetterOrDigitU

/-- Loop of `tokenize` (src/main/token.ts), fuel-indexed: starting at `idx`,
repeatedly take the substring up to `nextTokenIdx`, strip non-alphanumerics,
and keep the normalized token if non-empty. -/
def tokenizeGo (fuel : Nat) (s : List Char) (idx : Nat) : Option (List (List Char)) :=
  match fuel with
  | 0 => none
  | fuel + 1 =>
    if idx < s.length then
      let nextIdx := nextTokenIdx s idx
      let token := stripNonAlnum (substring s idx nextIdx)
      match tokenizeGo fuel s nextIdx with
      | none => none
      | some rest => some (if 0 < token.length then normalizeToken token :: rest else rest)
    else some []

/-- Embedding of `tokenize` (src/main/token.ts).  The fuel `s.length + 1` is
sufficient because `nextTokenIdx` strictly advances (`lt_nextTokenIdx`). -/
def tokenize (s : List Char) : List (List Char) :=
  (tokenizeGo (s.length + 1) s 0).getD []

/-- Exact-fraction embedding of a JS number: `num / den` with comparisons by
cross-multiplication.  All numbers produced by the library are quotients of
machine integers; fractions are kept unnormalized so that every operation is
kernel-computable. -/
structure JsNum where
  num : Int
  den : Nat
deriving DecidableEq, Repr

namespace JsNum

/-- A JS integer literal. -/
def ofNat (n : Nat) : JsNum := ⟨n, 1⟩

/-- JS `a + b`. -/
def add (a b : JsNum) : JsNum := ⟨a.num * b.den + b.num * a.den, a.den * b.den⟩

/-- JS `a * b`. -/
def mul (a b : JsNum) : JsNum := ⟨a.num * b.num, a.den * b.den⟩

/-- JS `n / d` for natural `n`, `d` (the only division in the library is
`count / (len + m)`). -/
def divNat (n d : Nat) : JsNum := ⟨n, d⟩

/-- JS `a === b` on numbers (value equality; sound for positive denominators). -/
def beq (a b : JsNum) : Bool := decide (a.num * (b.den : Int) = b.num * (a.den : Int))

/-- JS `a < b` on numbers (sound for positive denominators). -/
def blt (a b : JsNum) : Bool := decide (a.num * (b.den : Int) < b.num * (a.den : Int))

/-- Interpretation of a `JsNum` as a rational number. -/
def toRat (x : JsNum) : ℚ := (x.num : ℚ) / (x.den : ℚ)

end JsNum

/-- Helper for JS `String.prototype.indexOf`: first position `≥ pos` (in the
enumeration of the given list, whose head sits at offset `pos`) holding
character `c`. -/
def indexOfFromGo (c : Char) (pos : Nat) : List Char → Option Nat
  | [] => none
  | x :: xs => if x = c then some pos else indexOfFromGo c (pos + 1) xs

/-- JS `s.indexOf(c, fromIdx)` (with `none` for `-1`). -/
def indexOfFrom (s : List Char) (c : Char) (fromIdx : Nat) : Option Nat :=
  indexOfFromGo c fromIdx (s.drop fromIdx)

/-- Loop of `matchWildcard`: for each remaining query letter, find its first
occurrence at or after `fromIdx` in the lowercased source; a missing letter
discards all matches. -/
def matchWildcardGo (sourceNorm : List Char) (fromIdx : Nat) (acc : List Nat) :
    List Char → List Nat
  | [] => acc
  | letter :: rest =>
    match indexOfFrom sourceNorm (Char.toLower letter) fromIdx with
    | none => []
    | some idx => matchWildcardGo sourceNorm (idx + 1) (acc ++ [idx]) rest

/-- Embedding of `matchWildcard` (match.ts): the query is lowercased and
stripped of whitespace (`.replace(/\s+/g, '')`), then matched as an ordered
subsequence of the lowercased source. -/
def matchWildcard (query source : List Char) : List Nat :=
  let q := (query.map Char.toLower).filter (fun c => !c.isWhitespace)
  let sourceNorm := source.map Char.toLower
  matchWildcardGo sourceNorm 0 [] q

/-- Loop of `matchLetterTokens` (match.ts), fuel-indexed.  `qnorm` is the
normalized query (reset on self-retry), `queue` the not yet consumed query
letters, `acc` the matched offsets.  On source exhaustion with letters left,
the whole match restarts from the next token boundary after `startPos`
(self-retry), or fails with `[]`. -/
def matchLetterTokensGo (fuel : Nat) (qnorm source : List Char) (startPos : Nat)
    (queue : List Char) (cursor : Nat) (acc : List Nat) : Option (List Nat) :=
  match fuel with
  | 0 => none
  | fuel + 1 =>
    match queue with
    | [] => some acc
    | letter :: qrest =>
      if cursor < source.length then
        if letter = Char.toLower (source.getD cursor ' ') then
          matchLetterTokensGo fuel qnorm source startPos qrest (cursor + 1) (acc ++ [cursor])
        else
          matchLetterTokensGo fuel qnorm source startPos queue (nextTokenIdx source cursor) acc
      else
        let nextPos := nextTokenIdx source startPos
        if nextPos < source.length then
          matchLetterTokensGo fuel qnorm source nextPos qnorm nextPos []
        else some []

/-- Fuel sufficient for `matchLetterTokensGo`: the retry start position
strictly increases and within one pass the cursor strictly increases, so
`(len + 2)²` steps always suffice. -/
def matchLetterFuel (source : List Char) : Nat :=
  (source.length + 2) * (source.length + 2)

/-- Embedding of `matchLetterTokens` (match.ts): each letter of the
normalized query must match at the cursor; on success the cursor advances by
one, on mismatch it jumps to the next token boundary. -/
def matchLetterTokens (query source : List Char) (startPos : Nat := 0) : List Nat :=
  (matchLetterTokensGo (matchLetterFuel source) (normalizeToken query) source startPos
    (normalizeToken query) startPos []).getD []

/-- Loop of `matchTokensStrict` (match.ts), fuel-indexed.  Each query token
must appear verbatim at the cursor in the lowercased source; on success all
its offsets are recorded and the cursor moves to
`min (nextTokenIdx source cursorEnd) (nextTokenIdx source cursor)`; on
mismatch the cursor jumps to the next token boundary.  On source exhaustion
with tokens left, the match is retried via `matchLetterTokens` from the next
token boundary after `startPos`. -/
def matchTokensStrictGo (fuel : Nat) (query source sourceNorm : List Char) (startPos : Nat)
    (queue : List (List Char)) (cursor : Nat) (acc : List Nat) : Option (List Nat) :=
  match fuel with
  | 0 => none
  | fuel + 1 =>
    match queue with
    | [] => some acc
    | token :: qrest =>
      if cursor < source.length then
        let cursorEnd := cursor + token.length
        if substring sourceNorm cursor cursorEnd = token then
          matchTokensStrictGo fuel query source sourceNorm startPos qrest
            (min (nextTokenIdx source cursorEnd) (nextTokenIdx source cursor))
            (acc ++ List.range' cursor token.length)
        else
          matchTokensStrictGo fuel query source sourceNorm startPos (token :: qrest)
            (nextTokenIdx source cursor) acc
      else
        let nextPos := nextTokenIdx source startPos
        if nextPos < source.length then some (matchLetterTokens query source nextPos)
        else some []

/-- Embedding of `matchTokensStrict` (match.ts). -/
def matchTokensStrict (query source : List Char) (startPos : Nat := 0) : List Nat :=
  (matchTokensStrictGo (source.length + 2) query source (source.map Char.toLower) startPos
    (tokenize query) startPos []).getD []

/-- Inner `for (const token of queryTokens)` of `matchTokensLenient`: the
first query token (in query order) matching at the cursor. -/
def lenientFindToken (sourceNorm : List Char) (cursor : Nat) :
    List (List Char) → Option (List Char)
  | [] => none
  | token :: rest =>
    if substring sourceNorm cursor (cursor + token.length) = token then some token
    else lenientFindToken sourceNorm cursor rest

/-- Loop of `matchTokensLenient` (match.ts), fuel-indexed: at each cursor
position try every query token; on a hit record its offsets and advance like
the strict matcher, otherwise jump to the next token boundary. -/
def matchTokensLenientGo (fuel : Nat) (queryTokens : List (List Char))
    (source sourceNorm : List Char) (cursor : Nat) (acc : List Nat) : Option (List Nat) :=
  match fuel with
  | 0 => none
  | fuel + 1 =>
    if cursor < source.length then
      match lenientFindToken sourceNorm cursor queryTokens with
      | some token =>
        matchTokensLenientGo fuel queryTokens source sourceNorm
          (min (nextTokenIdx source (cursor + token.length)) (nextTokenIdx source cursor))
          (acc ++ List.range' cursor token.length)
      | none =>
        matchTokensLenientGo fuel queryTokens source sourceNorm (nextTokenIdx source cursor) acc
    else some acc

/-- Embedding of `matchTokensLenient` (match.ts). -/
def matchTokensLenient (query source : List Char) : List Nat :=
  (matchTokensLenientGo (source.length + 2) (tokenize query) source (source.map Char.toLower)
    0 []).getD []

/-- Embedding of `fuzzyMatchScore` (match.ts):
`matches.reduce((sum, m) => sum + n / (l + m), 0)` with `l = source.length`
and `n = matches.length`. -/
def fuzzyMatchScore (source : List Char) («matches» : List Nat) : JsNum :=
  let l := source.length
  let n := «matches».length
  «matches».foldl (fun sum m => sum.add (JsNum.divNat n (l + m))) (JsNum.ofNat 0)

/-- The tagged wrapper `<tag>c</tag>` put around a matched character by
`formatHighlight`. -/
def highlightWrap (tag : List Char) (c : Char) : List Char :=
  ['<'] ++ tag ++ ['>'] ++ [c] ++ ['<', '/'] ++ tag ++ ['>']

/-- Loop of `formatHighlight` (src/main/highlight.ts): `i` is the offset of
the head of the remaining source. -/
def formatHighlightGo («matches» : List Nat) (tag : List Char) (i : Nat) :
    List Char → List Char
  | [] => []
  | c :: cs =>
    (if «matches».contains i then highlightWrap tag c else [c]) ++
      formatHighlightGo «matches» tag (i + 1) cs

/-- Embedding of `formatHighlight` (src/main/highlight.ts). -/
def formatHighlight (source : List Char) («matches» : List Nat) (tag : List Char) : List Char :=
  formatHighlightGo «matches» tag 0 source

/-- JS `a < b` on strings: lexicographic comparison of code units, a proper
prefix being smaller. -/
def lexLt : List Char → List Char → Bool
  | [], [] => false
  | [], _ :: _ => true
  | _ :: _, [] => false
  | a :: as, b :: bs => if a < b then true else if b < a then false else lexLt as bs

/-- Embedding of the `FuzzyMatchOptions` record (match.ts): four optional
bias weights and an optional highlight tag; `none` selects the default. -/
structure FuzzyMatchOptions where
  highlightTag : Option (List Char) := none
  biasTokensStrict : Option JsNum := none
  biasLetterTokens : Option JsNum := none
  biasTokensLenient : Option JsNum := none
  biasWildcard : Option JsNum := none

/-- Embedding of the `FuzzyMatchResult` record (match.ts). -/
structure FuzzyMatchResult where
  score : JsNum
  «matches» : List Nat
  highlight : List Char
deriving DecidableEq, Repr

/-- Embedding of the `MatchAlgorithm` record (match.ts): a matcher together
with its bias selector. -/
structure MatchAlgorithm where
  matcher : List Char → List Char → List Nat
  bias : FuzzyMatchOptions → JsNum

/-- Embedding of the `algorithms` registry (match.ts), in source order with
default biases 16, 8, 4, 1 (`opt.bias… ?? default`). -/
def algorithms : List MatchAlgorithm :=
  [⟨fun q s => matchTokensStrict q s, fun opt => opt.biasTokensStrict.getD (JsNum.ofNat 16)⟩,
   ⟨fun q s => matchLetterTokens q s, fun opt => opt.biasLetterTokens.getD (JsNum.ofNat 8)⟩,
   ⟨fun q s => matchTokensLenient q s, fun opt => opt.biasTokensLenient.getD (JsNum.ofNat 4)⟩,
   ⟨fun q s => matchWildcard q s, fun opt => opt.biasWildcard.getD (JsNum.ofNat 1)⟩]

/-- Stable insertion used to model
`algorithms.slice().sort((a, b) => biasA < biasB ? 1 : -1)`: `a` is placed
after `b` exactly when the comparator returns `1`, i.e. when
`biasA < biasB`; on ties (comparator `-1`) the earlier element stays first,
matching a stable sort. -/
def insertAlgDesc (opts : FuzzyMatchOptions) (a : MatchAlgorithm) :
    List MatchAlgorithm → List MatchAlgorithm
  | [] => [a]
  | b :: bs =>
    if JsNum.blt (a.bias opts) (b.bias opts) then b :: insertAlgDesc opts a bs
    else a :: b :: bs

/-- The bias-descending traversal order of `fuzzyMatch` (a stable insertion
sort of the registry under the comparator above). -/
def sortAlgs (opts : FuzzyMatchOptions) (l : List MatchAlgorithm) : List MatchAlgorithm :=
  l.foldr (insertAlgDesc opts) []

/-- Loop of `fuzzyMatch` (match.ts): skip algorithms whose resolved bias is
`=== 0`; the first remaining algorithm with a non-empty index set yields the
result, its raw score multiplied by its own bias. -/
def fuzzyMatchLoop (query source : List Char) (opts : FuzzyMatchOptions) :
    List MatchAlgorithm → FuzzyMatchResult
  | [] => ⟨JsNum.ofNat 0, [], source⟩
  | algo :: rest =>
    if JsNum.beq (algo.bias opts) (JsNum.ofNat 0) then fuzzyMatchLoop query source opts rest
    else
      let ms := algo.matcher query source
      if 0 < ms.length then
        ⟨(fuzzyMatchScore source ms).mul (algo.bias opts), ms,
         formatHighlight source ms (opts.highlightTag.getD ['b'])⟩
      else fuzzyMatchLoop query source opts rest

/-- Embedding of `fuzzyMatch` (match.ts). -/
def fuzzyMatch (query source : List Char) (opts : FuzzyMatchOptions := {}) : FuzzyMatchResult :=
  fuzzyMatchLoop query source opts (sortAlgs opts algorithms)

/-- Embedding of the `FuzzySearchResult` record (search file). -/
structure FuzzySearchResult where
  score : JsNum
  «matches» : List Nat
  source : List Char
  index : Nat
  highlight : List Char
deriving DecidableEq, Repr

/-- Collection loop of `fuzzySearch`: run `fuzzyMatch` on every candidate at
its original list position `i` and keep those with `score > 0`. -/
def fuzzySearchCollect (query : List Char) (opts : FuzzyMatchOptions) :
    Nat → List (List Char) → List FuzzySearchResult
  | _, [] => []
  | i, s :: ss =>
    let m := fuzzyMatch query s opts
    if JsNum.blt (JsNum.ofNat 0) m.score then
      ⟨m.score, m.matches, s, i, m.highlight⟩ :: fuzzySearchCollect query opts (i + 1) ss
    else fuzzySearchCollect query opts (i + 1) ss

/-- The comparator of `fuzzySearch`'s final sort, as the relation
"comparator result ≤ 0" ("order by score desc, text asc"): on equal scores
`a` stays before `b` unless `a.source > b.source`; otherwise `a` stays
before `b` exactly when `a.score > b.score`. -/
def searchLe (a b : FuzzySearchResult) : Bool :=
  if JsNum.beq a.score b.score then !(lexLt b.source a.source)
  else JsNum.blt b.score a.score

/-- Stable insertion for the final sort of `fuzzySearch`. -/
def insertSearch (a : FuzzySearchResult) :
    List FuzzySearchResult → List FuzzySearchResult
  | [] => [a]
  | b :: bs => if searchLe a b then a :: b :: bs else b :: insertSearch a bs

/-- Stable sort modelling `results.sort(...)` in `fuzzySearch`. -/
def sortSearch (l : List FuzzySearchResult) : List FuzzySearchResult :=
  l.foldr insertSearch []

/-- Embedding of `fuzzySearch` (search file). -/
def fuzzySearch (query : List Char) (sources : List (List Char))
    (opts : FuzzyMatchOptions := {}) : List FuzzySearchResult :=
  sortSearch (fuzzySearchCollect query opts 0 sources)

/-- Well-formedness of an embedded JS number: positive denominator.  Every
actual JS float is such a fraction; fractions with a zero denominator are
artifacts of the unnormalized representation. -/
def JsNum.WF (x : JsNum) : Prop := 0 < x.den

/-- Non-negativity of an embedded JS number (with a positive denominator the
sign is the numerator's). -/
def JsNum.Nonneg (x : JsNum) : Prop := 0 ≤ x.num

/-- Well-formedness of an options record: every supplied bias is a fraction
with a positive denominator. -/
def FuzzyMatchOptions.WF (o : FuzzyMatchOptions) : Prop :=
  (∀ x ∈ o.biasTokensStrict, x.WF) ∧ (∀ x ∈ o.biasLetterTokens, x.WF) ∧
    (∀ x ∈ o.biasTokensLenient, x.WF) ∧ (∀ x ∈ o.biasWildcard, x.WF)

/-- Every supplied bias of an options record is non-negative. -/
def FuzzyMatchOptions.NonnegBiases (o : FuzzyMatchOptions) : Prop :=
  (∀ x ∈ o.biasTokensStrict, x.Nonneg) ∧ (∀ x ∈ o.biasLetterTokens, x.Nonneg) ∧
    (∀ x ∈ o.biasTokensLenient, x.Nonneg) ∧ (∀ x ∈ o.biasWildcard, x.Nonneg)

/-- Spec-side characterization of the aggregation step of `fuzzySearch`
(spec 4.7): for each candidate at its original list position the arbitrator
is invoked, and candidates with score `0` are dropped. -/
def fuzzySearchSpecResults (query : List Char) (sources : List (List Char))
    (opts : FuzzyMatchOptions) : List FuzzySearchResult :=
  sources.enum.filterMap fun p =>
    let m := fuzzyMatch query p.2 opts
    if 0 < m.score.toRat then some ⟨m.score, m.matches, p.2, p.1, m.highlight⟩ else none

/-- Spec-side order of a ranked result list (spec 4.7): primarily by score
descending, ties broken by the candidate string in ascending ordinal
(code-point) order. -/
def rankedBefore (a b : FuzzySearchResult) : Prop :=
  b.score.toRat < a.score.toRat ∨
    (b.score.toRat = a.score.toRat ∧ lexLt b.source a.source = false)

/-- The nine-candidate list of the repository's search test (search.test.ts). -/
def nineCandidates : List (List Char) :=
  ["DOM.getText".data, "DOM.getInnerText".data, "DOM.getTextContent".data,
   "DOM.queryAll".data, "DOM.queryOne".data, "DOM.batchExtract".data,
   "Value.containsText".data, "Value.equalsText".data, "String.extractRegexp".data]

/-- The ranking documented for query `"text"` against `nineCandidates`
(search.test.ts and spec 8). -/
def textExpectedRanking : List (List Char) :=
  ["DOM.getText".data, "DOM.getTextContent".data, "DOM.getInnerText".data,
   "Value.equalsText".data, "Value.containsText".data, "DOM.batchExtract".data,
   "String.extractRegexp".data]

-- # Theorems

-- ## Scanner bounds

theorem runLen_le (p : Char → Bool) (l : List Char) : runLen p l ≤ l.length := by
  induction l with
  | nil => simp [runLen]
  | cons c cs ih =>
    simp only [runLen, List.length_cons]
    split <;> omega

theorem runLen_pos {p : Char → Bool} {c : Char} (cs : List Char) (h : p c = true) :
    0 < runLen p (c :: cs) := by
  simp [runLen, h]

theorem alt1Len_bounds {rest : List Char} {k : Nat} (h : alt1Len rest = some k) :
    1 ≤ k ∧ k ≤ rest.length := by
  match rest with
  | [] => simp [alt1Len] at h
  | c :: cs =>
    simp only [alt1Len] at h
    split at h
    · split at h
      · rename_i hg
        have hr := runLen_le isLowerDigit cs
        simp only [Option.some.injEq] at h
        simp only [List.length_cons]
        omega
      · exact absurd h (by simp)
    · split at h
      · rename_i hg
        have hr := runLen_le isLowerDigit (c :: cs)
        simp only [Bool.and_eq_true, decide_eq_true_eq] at hg
        simp only [Option.some.injEq] at h
        omega
      · exact absurd h (by simp)

theorem alt2Len_le (rest : List Char) : alt2Len rest ≤ rest.length := by
  have h1 := runLen_le isAlnumA rest
  have h2 := runLen_le (fun c => !isAlnumA c) (rest.drop (runLen isAlnumA rest))
  simp only [List.length_drop] at h2
  simp only [alt2Len]
  omega

theorem alt2Len_pos {c : Char} (cs : List Char) (h : isAlnumA c = true) :
    0 < alt2Len (c :: cs) := by
  have := runLen_pos cs h
  simp only [alt2Len]
  omega

theorem nextTokenIdx_le (s : List Char) (p : Nat) : nextTokenIdx s p ≤ s.length := by
  unfold nextTokenIdx
  rcases hd : s.drop p with _ | ⟨c, cs⟩
  · simp [nextTokenIdxAux]
  · have hlen : cs.length + 1 = s.length - p := by
      have := congrArg List.length hd
      simpa using this.symm
    have hp : p < s.length := by
      have : (s.drop p).length ≠ 0 := by rw [hd]; simp
      simp only [List.length_drop] at this
      omega
    simp only [nextTokenIdxAux]
    split
    · rcases h1 : alt1Len (c :: cs) with _ | k
      · simp only []
        have := alt2Len_le (c :: cs)
        simp only [List.length_cons] at this
        omega
      · simp only []
        have := (alt1Len_bounds h1).2
        simp only [List.length_cons] at this
        omega
    · split
      · rename_i hk
        omega
      · omega

theorem le_nextTokenIdx {s : List Char} {p : Nat} (h : p ≤ s.length) :
    p ≤ nextTokenIdx s p := by
  unfold nextTokenIdx
  rcases hd : s.drop p with _ | ⟨c, cs⟩
  · simpa [nextTokenIdxAux]
  · simp only [nextTokenIdxAux]
    split
    · rcases h1 : alt1Len (c :: cs) with _ | k <;> simp only [] <;> omega
    · split
      · omega
      · omega

theorem lt_nextTokenIdx {s : List Char} {p : Nat} (h : p < s.length) :
    p < nextTokenIdx s p := by
  unfold nextTokenIdx
  rcases hd : s.drop p with _ | ⟨c, cs⟩
  · have : (s.drop p).length = 0 := by rw [hd]; simp
    simp only [List.length_drop] at this
    omega
  · simp only [nextTokenIdxAux]
    split
    · rename_i hc
      rcases h1 : alt1Len (c :: cs) with _ | k
      · have := alt2Len_pos cs hc
        simp only []
        omega
      · have := (alt1Len_bounds h1).1
        simp only []
        omega
    · rename_i hc
      have hk : 0 < runLen (fun x => !isAlnumA x) (c :: cs) := by
        apply runLen_pos
        simp [hc]
      split
      · omega
      · omega

theorem tokenizeGo_isSome (s : List Char) :
    ∀ fuel idx, s.length - idx < fuel → (tokenizeGo fuel s idx).isSome := by
  intro fuel
  induction fuel with
  | zero => intro idx h; omega
  | succ fuel ih =>
    intro idx h
    simp only [tokenizeGo]
    split
    · rename_i hidx
      have h1 : idx < nextTokenIdx s idx := lt_nextTokenIdx hidx
      have h2 : nextTokenIdx s idx ≤ s.length := nextTokenIdx_le s idx
      have := ih (nextTokenIdx s idx) (by omega)
      rcases hres : tokenizeGo fuel s (nextTokenIdx s idx) with _ | rest
      · rw [hres] at this; simp at this
      · simp
    · simp

namespace JsNum

theorem toRat_ofNat (n : Nat) : (ofNat n).toRat = n := by
  simp [ofNat, toRat]

theorem toRat_divNat (n d : Nat) : (divNat n d).toRat = (n : ℚ) / (d : ℚ) := by
  simp [divNat, toRat]

theorem toRat_add {a b : JsNum} (ha : a.den ≠ 0) (hb : b.den ≠ 0) :
    (a.add b).toRat = a.toRat + b.toRat := by
  have ha' : (a.den : ℚ) ≠ 0 := Nat.cast_ne_zero.mpr ha
  have hb' : (b.den : ℚ) ≠ 0 := Nat.cast_ne_zero.mpr hb
  simp only [add, toRat]
  push_cast
  field_simp

theorem toRat_mul {a b : JsNum} (ha : a.den ≠ 0) (hb : b.den ≠ 0) :
    (a.mul b).toRat = a.toRat * b.toRat := by
  have ha' : (a.den : ℚ) ≠ 0 := Nat.cast_ne_zero.mpr ha
  have hb' : (b.den : ℚ) ≠ 0 := Nat.cast_ne_zero.mpr hb
  simp only [mul, toRat]
  push_cast
  field_simp

theorem toRat_pos {x : JsNum} (hn : 0 < x.num) (hd : 0 < x.den) : 0 < x.toRat := by
  have : (0 : ℚ) < (x.num : ℚ) := by exact_mod_cast hn
  have : (0 : ℚ) < (x.den : ℚ) := by exact_mod_cast hd
  exact div_pos (by exact_mod_cast hn) this

theorem toRat_neg' {x : JsNum} (hn : x.num < 0) (hd : 0 < x.den) : x.toRat < 0 := by
  have h1 : (x.num : ℚ) < 0 := by exact_mod_cast hn
  have h2 : (0 : ℚ) < (x.den : ℚ) := by exact_mod_cast hd
  exact div_neg_of_neg_of_pos h1 h2

theorem toRat_eq_zero_iff {x : JsNum} (hd : 0 < x.den) : x.toRat = 0 ↔ x.num = 0 := by
  have h2 : ((x.den : ℚ)) ≠ 0 := by
    exact_mod_cast Nat.pos_iff_ne_zero.mp hd
  simp [toRat, div_eq_zero_iff, h2]

theorem blt_asymm {a b : JsNum} (h : blt a b = true) : blt b a = false := by
  simp only [blt, decide_eq_true_eq] at h
  simp only [blt, decide_eq_false_iff_not]
  omega

theorem beq_symm (a b : JsNum) : beq a b = beq b a := by
  simp only [beq, decide_eq_decide]
  omega

theorem blt_or_of_not_beq {a b : JsNum} (h : beq a b = false) :
    blt a b = true ∨ blt b a = true := by
  simp only [beq, decide_eq_false_iff_not] at h
  simp only [blt, decide_eq_true_eq]
  omega

end JsNum

-- ## Character classes

theorem char_le_iff {a b : Char} : a ≤ b ↔ a.toNat ≤ b.toNat := by
  rw [Char.le_def]
  constructor
  · intro h; exact h
  · intro h; exact h

theorem uint32_le_iff {a b : UInt32} : a ≤ b ↔ a.toNat ≤ b.toNat := by
  rw [UInt32.le_def, BitVec.le_def]
  exact Iff.rfl

theorem isUpperA_iff (c : Char) : isUpperA c = true ↔ 65 ≤ c.toNat ∧ c.toNat ≤ 90 := by
  simp [isUpperA, char_le_iff]

theorem isLowerDigit_iff (c : Char) :
    isLowerDigit c = true ↔ (97 ≤ c.toNat ∧ c.toNat ≤ 122) ∨ (48 ≤ c.toNat ∧ c.toNat ≤ 57) := by
  simp [isLowerDigit, char_le_iff]

theorem toNat_ofNat_valid {n : Nat} (h : n.isValidChar) : (Char.ofNat n).toNat = n := by
  rw [Char.ofNat, dif_pos h]
  simp [Char.ofNatAux, Char.toNat, UInt32.toNat]

theorem toLower_toNat (c : Char) (h : 65 ≤ c.toNat ∧ c.toNat ≤ 90) :
    (Char.toLower c).toNat = c.toNat + 32 := by
  have hv : (c.toNat + 32).isValidChar := by
    left
    omega
  simp only [Char.toLower, ge_iff_le]
  rw [if_pos (by omega)]
  exact toNat_ofNat_valid hv

theorem toLower_eq_self (c : Char) (h : ¬(65 ≤ c.toNat ∧ c.toNat ≤ 90)) :
    Char.toLower c = c := by
  simp only [Char.toLower]
  rw [if_neg (by omega)]

theorem toLower_lowerDigit {c : Char} (h : isAlnumA c = true) :
    isLowerDigit (Char.toLower c) = true := by
  simp only [isAlnumA, Bool.or_eq_true] at h
  rcases h with h | h
  · rw [isUpperA_iff] at h
    rw [isLowerDigit_iff, toLower_toNat c h]
    omega
  · rw [isLowerDigit_iff] at h
    rw [toLower_eq_self c (by omega), isLowerDigit_iff]
    exact h

theorem toLower_of_lowerDigit {c : Char} (h : isLowerDigit c = true) :
    Char.toLower c = c := by
  rw [isLowerDigit_iff] at h
  exact toLower_eq_self c (by omega)

theorem lowerDigit_isLetterOrDigitU {c : Char} (h : isLowerDigit c = true) :
    isLetterOrDigitU c = true := by
  rw [isLowerDigit_iff] at h
  simp only [isLetterOrDigitU, Char.isAlphanum, Char.isAlpha, Char.isLower, Char.isDigit,
    Char.isUpper, Bool.or_eq_true, Bool.and_eq_true, decide_eq_true_eq, ge_iff_le, uint32_le_iff]
  have h97 : ((97 : UInt32)).toNat = 97 := rfl
  have h122 : ((122 : UInt32)).toNat = 122 := rfl
  have h48 : ((48 : UInt32)).toNat = 48 := rfl
  have h57 : ((57 : UInt32)).toNat = 57 := rfl
  have hval : c.val.toNat = c.toNat := rfl
  rw [h97, h122, h48, h57, hval]
  omega

theorem lowerDigit_isAlnumA {c : Char} (h : isLowerDigit c = true) : isAlnumA c = true := by
  simp [isAlnumA, h]

theorem not_upperA_of_lowerDigit {c : Char} (h : isLowerDigit c = true) :
    isUpperA c = false := by
  rw [isLowerDigit_iff] at h
  rw [Bool.eq_false_iff]
  intro hu
  rw [isUpperA_iff] at hu
  omega

-- ## Lexicographic string comparison

theorem lexLt_asymm : ∀ {a b : List Char}, lexLt a b = true → lexLt b a = false := by
  intro a
  induction a with
  | nil =>
    intro b h
    cases b with
    | nil => simp [lexLt] at h
    | cons y bs => simp [lexLt]
  | cons x as ih =>
    intro b h
    cases b with
    | nil => simp [lexLt] at h
    | cons y bs =>
      simp only [lexLt] at h ⊢
      by_cases hxy : x < y
      · have hyx : ¬ y < x := lt_asymm hxy
        simp [hxy, hyx] at h ⊢
      · by_cases hyx : y < x
        · simp [hxy, hyx] at h
        · simp only [hxy, hyx, if_false] at h ⊢
          exact ih h

theorem lexLt_cases : ∀ {c a b : List Char}, lexLt c a = true →
    lexLt c b = true ∨ lexLt b a = true := by
  intro c
  induction c with
  | nil =>
    intro a b h
    cases a with
    | nil => simp [lexLt] at h
    | cons x as =>
      cases b with
      | nil => right; simp [lexLt]
      | cons y bs => left; simp [lexLt]
  | cons z cs ih =>
    intro a b h
    cases a with
    | nil => simp [lexLt] at h
    | cons x as =>
      cases b with
      | nil => right; simp [lexLt]
      | cons y bs =>
        simp only [lexLt] at h ⊢
        by_cases hzx : z < x
        · by_cases hzy : z < y
          · left; simp [hzy]
          · right
            have hyx : y < x := lt_of_le_of_lt (not_lt.mp hzy) hzx
            have : ¬ y < x → False := fun hc => hc hyx
            simp [hyx, lt_asymm hyx]
        · by_cases hxz : x < z
          · simp [hzx, hxz] at h
          · have hzxe : z = x := le_antisymm (not_lt.mp hxz) (not_lt.mp hzx)
            simp only [hzx, hxz, if_false] at h
            by_cases hzy : z < y
            · left; simp [hzy]
            · by_cases hyz : y < z
              · right
                have hyx : y < x := hzxe ▸ hyz
                simp [hyx]
              · have hzye : z = y := le_antisymm (not_lt.mp hyz) (not_lt.mp hzy)
                rcases @ih as bs h with h1 | h1
                · left
                  simp [hzy, hyz, h1]
                · right
                  have hyx1 : ¬ y < x := hzxe ▸ hyz
                  have hxy1 : ¬ x < y := hzxe ▸ hzy
                  simp [hyx1, hxy1, h1]

-- ## JsNum comparisons versus their rational interpretation

namespace JsNum

theorem blt_iff_toRat {a b : JsNum} (ha : 0 < a.den) (hb : 0 < b.den) :
    blt a b = true ↔ a.toRat < b.toRat := by
  simp only [blt, decide_eq_true_eq, toRat]
  rw [div_lt_div_iff (by exact_mod_cast ha) (by exact_mod_cast hb)]
  constructor
  · intro h; exact_mod_cast h
  · intro h; exact_mod_cast h

theorem beq_iff_toRat {a b : JsNum} (ha : 0 < a.den) (hb : 0 < b.den) :
    beq a b = true ↔ a.toRat = b.toRat := by
  simp only [beq, decide_eq_true_eq, toRat]
  rw [div_eq_div_iff (Nat.cast_ne_zero.mpr (by omega)) (Nat.cast_ne_zero.mpr (by omega))]
  constructor
  · intro h; exact_mod_cast h
  · intro h; exact_mod_cast h

theorem blt_false_iff {a b : JsNum} (ha : 0 < a.den) (hb : 0 < b.den) :
    blt a b = false ↔ b.toRat ≤ a.toRat := by
  rw [← not_lt, ← blt_iff_toRat ha hb]
  simp

theorem toRat_nonneg {x : JsNum} (hn : 0 ≤ x.num) : 0 ≤ x.toRat := by
  have h1 : (0 : ℚ) ≤ (x.num : ℚ) := by exact_mod_cast hn
  have h2 : (0 : ℚ) ≤ (x.den : ℚ) := by positivity
  exact div_nonneg h1 h2

theorem beq_ofNat_zero_iff (x : JsNum) : beq x (ofNat 0) = true ↔ x.num = 0 := by
  simp [beq, ofNat]

end JsNum

-- ## The bias-descending traversal order of the arbitrator

theorem insertAlgDesc_perm (opts : FuzzyMatchOptions) (a : MatchAlgorithm) :
    ∀ l, List.Perm (insertAlgDesc opts a l) (a :: l) := by
  intro l
  induction l with
  | nil => exact List.Perm.refl _
  | cons b bs ih =>
    simp only [insertAlgDesc]
    split
    · exact (ih.cons b).trans (List.Perm.swap a b bs)
    · exact List.Perm.refl _

theorem sortAlgs_perm (opts : FuzzyMatchOptions) (l : List MatchAlgorithm) :
    List.Perm (sortAlgs opts l) l := by
  induction l with
  | nil => exact List.Perm.refl _
  | cons b bs ih =>
    exact (insertAlgDesc_perm opts b _).trans (ih.cons b)

theorem mem_sortAlgs {opts : FuzzyMatchOptions} {l : List MatchAlgorithm}
    {a : MatchAlgorithm} : a ∈ sortAlgs opts l ↔ a ∈ l :=
  (sortAlgs_perm opts l).mem_iff

theorem insertAlgDesc_shape (opts : FuzzyMatchOptions) (a : MatchAlgorithm) :
    ∀ l, insertAlgDesc opts a l = a :: l ∨
      ∃ c cs, l = c :: cs ∧ insertAlgDesc opts a l = c :: insertAlgDesc opts a cs := by
  intro l
  cases l with
  | nil => left; rfl
  | cons c cs =>
    simp only [insertAlgDesc]
    split
    · right; exact ⟨c, cs, rfl, rfl⟩
    · left; rfl

theorem insertAlgDesc_chain (opts : FuzzyMatchOptions) (a : MatchAlgorithm) :
    ∀ l, List.Chain' (fun x y => JsNum.blt (x.bias opts) (y.bias opts) = false) l →
      List.Chain' (fun x y => JsNum.blt (x.bias opts) (y.bias opts) = false)
        (insertAlgDesc opts a l) := by
  intro l
  induction l with
  | nil => intro _; simp [insertAlgDesc]
  | cons b bs ih =>
    intro hch
    simp only [insertAlgDesc]
    split
    · rename_i hblt
      have htail : List.Chain' _ (insertAlgDesc opts a bs) := ih hch.tail
      apply htail.cons'
      intro y hy
      rcases insertAlgDesc_shape opts a bs with hsh | ⟨c, cs, hbs, hsh⟩
      · rw [hsh] at hy
        simp only [List.head?_cons, Option.mem_def, Option.some.injEq] at hy
        subst hy
        exact JsNum.blt_asymm hblt
      · rw [hsh] at hy
        simp only [List.head?_cons, Option.mem_def, Option.some.injEq] at hy
        subst hy
        subst hbs
        exact (List.chain'_cons.mp hch).1
    · rename_i hblt
      exact hch.cons (Bool.eq_false_iff.mpr hblt)

theorem sortAlgs_chain (opts : FuzzyMatchOptions) (l : List MatchAlgorithm) :
    List.Chain' (fun x y => JsNum.blt (x.bias opts) (y.bias opts) = false)
      (sortAlgs opts l) := by
  induction l with
  | nil => simp [sortAlgs]
  | cons b bs ih => exact insertAlgDesc_chain opts b _ ih

-- ## The final sort of the aggregator

theorem searchLe_total {a b : FuzzySearchResult} (h : searchLe a b = false) :
    searchLe b a = true := by
  simp only [searchLe] at h ⊢
  by_cases hbeq : JsNum.beq a.score b.score = true
  · rw [if_pos hbeq] at h
    rw [if_pos ((JsNum.beq_symm b.score a.score).trans hbeq)]
    simp only [Bool.not_eq_false'] at h
    simp [lexLt_asymm h]
  · have hbeq' : JsNum.beq a.score b.score = false := Bool.eq_false_iff.mpr hbeq
    rw [if_neg hbeq] at h
    rw [if_neg (by rw [JsNum.beq_symm b.score a.score]; simp [hbeq'])]
    rcases JsNum.blt_or_of_not_beq hbeq' with h1 | h1
    · exact h1
    · rw [h1] at h; cases h

theorem insertSearch_shape (a : FuzzySearchResult) :
    ∀ l, insertSearch a l = a :: l ∨
      ∃ c cs, l = c :: cs ∧ insertSearch a l = c :: insertSearch a cs := by
  intro l
  cases l with
  | nil => left; rfl
  | cons c cs =>
    simp only [insertSearch]
    split
    · left; rfl
    · right; exact ⟨c, cs, rfl, rfl⟩

theorem insertSearch_perm (a : FuzzySearchResult) :
    ∀ l, List.Perm (insertSearch a l) (a :: l) := by
  intro l
  induction l with
  | nil => exact List.Perm.refl _
  | cons b bs ih =>
    simp only [insertSearch]
    split
    · exact List.Perm.refl _
    · exact (ih.cons b).trans (List.Perm.swap a b bs)

theorem sortSearch_perm (l : List FuzzySearchResult) : List.Perm (sortSearch l) l := by
  induction l with
  | nil => exact List.Perm.refl _
  | cons b bs ih =>
    exact (insertSearch_perm b _).trans (ih.cons b)

theorem insertSearch_chain (a : FuzzySearchResult) :
    ∀ l, List.Chain' (fun x y => searchLe x y = true) l →
      List.Chain' (fun x y => searchLe x y = true) (insertSearch a l) := by
  intro l
  induction l with
  | nil => intro _; simp [insertSearch]
  | cons b bs ih =>
    intro hch
    simp only [insertSearch]
    split
    · rename_i hle
      exact hch.cons hle
    · rename_i hle
      have htail : List.Chain' _ (insertSearch a bs) := ih hch.tail
      apply htail.cons'
      intro y hy
      rcases insertSearch_shape a bs with hsh | ⟨c, cs, hbs, hsh⟩
      · rw [hsh] at hy
        simp only [List.head?_cons, Option.mem_def, Option.some.injEq] at hy
        subst hy
        exact searchLe_total (Bool.eq_false_iff.mpr hle)
      · rw [hsh] at hy
        simp only [List.head?_cons, Option.mem_def, Option.some.injEq] at hy
        subst hy
        subst hbs
        exact (List.chain'_cons.mp hch).1

theorem sortSearch_chain (l : List FuzzySearchResult) :
    List.Chain' (fun x y => searchLe x y = true) (sortSearch l) := by
  induction l with
  | nil => simp [sortSearch]
  | cons b bs ih => exact insertSearch_chain b _ ih

-- ## The arbitration loop

theorem fuzzyMatchLoop_all_skip {query source : List Char} {opts : FuzzyMatchOptions} :
    ∀ {L : List MatchAlgorithm},
      (∀ a ∈ L, JsNum.beq (a.bias opts) (JsNum.ofNat 0) = true ∨ a.matcher query source = []) →
      fuzzyMatchLoop query source opts L = ⟨JsNum.ofNat 0, [], source⟩ := by
  intro L
  induction L with
  | nil => intro _; rfl
  | cons a rest ih =>
    intro h
    simp only [fuzzyMatchLoop]
    by_cases hbeq : JsNum.beq (a.bias opts) (JsNum.ofNat 0) = true
    · rw [if_pos hbeq]
      exact ih fun b hb => h b (List.mem_cons_of_mem a hb)
    · rw [if_neg hbeq]
      rcases h a (List.mem_cons_self a rest) with h1 | h1
      · exact absurd h1 hbeq
      · rw [if_neg (by simp [h1])]
        exact ih fun b hb => h b (List.mem_cons_of_mem a hb)

theorem fuzzyMatchLoop_select {query source : List Char} {opts : FuzzyMatchOptions}
    {a : MatchAlgorithm} (post : List MatchAlgorithm)
    (hbeq : JsNum.beq (a.bias opts) (JsNum.ofNat 0) = false)
    (hne : a.matcher query source ≠ []) :
    fuzzyMatchLoop query source opts (a :: post) =
      ⟨(fuzzyMatchScore source (a.matcher query source)).mul (a.bias opts),
       a.matcher query source,
       formatHighlight source (a.matcher query source) (opts.highlightTag.getD ['b'])⟩ := by
  simp only [fuzzyMatchLoop]
  rw [if_neg (by simp [hbeq]), if_pos (List.length_pos.mpr hne)]

theorem fuzzyMatchLoop_append_skip {query source : List Char} {opts : FuzzyMatchOptions}
    {rest : List MatchAlgorithm} :
    ∀ pre, (∀ a ∈ pre,
        JsNum.beq (a.bias opts) (JsNum.ofNat 0) = true ∨ a.matcher query source = []) →
      fuzzyMatchLoop query source opts (pre ++ rest) = fuzzyMatchLoop query source opts rest := by
  intro pre
  induction pre with
  | nil => intro _; rfl
  | cons a pre' ih =>
    intro h
    simp only [List.cons_append, fuzzyMatchLoop]
    by_cases hbeq : JsNum.beq (a.bias opts) (JsNum.ofNat 0) = true
    · rw [if_pos hbeq]
      exact ih fun b hb => h b (List.mem_cons_of_mem a hb)
    · rw [if_neg hbeq]
      rcases h a (List.mem_cons_self a pre') with h1 | h1
      · exact absurd h1 hbeq
      · rw [if_neg (by simp [h1])]
        exact ih fun b hb => h b (List.mem_cons_of_mem a hb)

theorem fuzzyMatchLoop_matches_range {query source : List Char} {opts : FuzzyMatchOptions} :
    ∀ L, (∀ a ∈ L, ∀ m ∈ a.matcher query source, m < source.length) →
      ∀ m ∈ (fuzzyMatchLoop query source opts L).matches, m < source.length := by
  intro L
  induction L with
  | nil => intro _ m hm; simp [fuzzyMatchLoop] at hm
  | cons a rest ih =>
    intro h m hm
    simp only [fuzzyMatchLoop] at hm
    by_cases hbeq : JsNum.beq (a.bias opts) (JsNum.ofNat 0) = true
    · rw [if_pos hbeq] at hm
      exact ih (fun b hb => h b (List.mem_cons_of_mem a hb)) m hm
    · rw [if_neg hbeq] at hm
      by_cases hlen : 0 < (a.matcher query source).length
      · rw [if_pos hlen] at hm
        exact h a (List.mem_cons_self a rest) m hm
      · rw [if_neg hlen] at hm
        exact ih (fun b hb => h b (List.mem_cons_of_mem a hb)) m hm

-- ## Match indices are in range

theorem indexOfFromGo_bounds {c : Char} :
    ∀ {l : List Char} {pos idx : Nat}, indexOfFromGo c pos l = some idx →
      pos ≤ idx ∧ idx < pos + l.length := by
  intro l
  induction l with
  | nil => intro pos idx h; simp [indexOfFromGo] at h
  | cons x xs ih =>
    intro pos idx h
    simp only [indexOfFromGo] at h
    split at h
    · simp only [Option.some.injEq] at h
      simp [← h]
    · have := ih h
      simp only [List.length_cons]
      omega

theorem indexOfFrom_bounds {s : List Char} {c : Char} {f idx : Nat}
    (h : indexOfFrom s c f = some idx) : f ≤ idx ∧ idx < s.length := by
  have hb := indexOfFromGo_bounds h
  have hlen : (s.drop f).length = s.length - f := List.length_drop f s
  have hne : s.drop f ≠ [] := by
    intro hnil
    rw [indexOfFrom, hnil] at h
    simp [indexOfFromGo] at h
  have : 0 < (s.drop f).length := List.length_pos.mpr hne
  omega

theorem matchWildcardGo_range {sn : List Char} :
    ∀ {q : List Char} {fromIdx : Nat} {acc : List Nat},
      (∀ m ∈ acc, m < sn.length) →
      ∀ m ∈ matchWildcardGo sn fromIdx acc q, m < sn.length := by
  intro q
  induction q with
  | nil => intro fromIdx acc hacc m hm; exact hacc m hm
  | cons letter rest ih =>
    intro fromIdx acc hacc m hm
    simp only [matchWildcardGo] at hm
    rcases hio : indexOfFrom sn (Char.toLower letter) fromIdx with _ | idx
    · rw [hio] at hm; simp at hm
    · rw [hio] at hm
      refine ih ?_ m hm
      intro m' hm'
      rcases List.mem_append.mp hm' with h | h
      · exact hacc m' h
      · simp only [List.mem_singleton] at h
        subst h
        exact (indexOfFrom_bounds hio).2

theorem matchWildcard_range (query source : List Char) :
    ∀ m ∈ matchWildcard query source, m < source.length := by
  intro m hm
  have hlen : (source.map Char.toLower).length = source.length := List.length_map source _
  have := @matchWildcardGo_range (source.map Char.toLower)
    ((query.map Char.toLower).filter (fun c => !c.isWhitespace))
    0 [] (by intro x hx; simp at hx) m hm
  omega

theorem matchLetterTokensGo_range {qnorm source : List Char} :
    ∀ {fuel : Nat} {startPos : Nat} {queue : List Char} {cursor : Nat} {acc l : List Nat},
      (∀ m ∈ acc, m < source.length) →
      matchLetterTokensGo fuel qnorm source startPos queue cursor acc = some l →
      ∀ m ∈ l, m < source.length := by
  intro fuel
  induction fuel with
  | zero => intro _ _ _ _ _ _ h; simp [matchLetterTokensGo] at h
  | succ fuel ih =>
    intro startPos queue cursor acc l hacc h m hm
    simp only [matchLetterTokensGo] at h
    match queue with
    | [] =>
      simp only [Option.some.injEq] at h
      exact hacc m (h ▸ hm)
    | letter :: qrest =>
      simp only at h
      split at h
      · rename_i hc
        split at h
        · refine ih ?_ h m hm
          intro m' hm'
          rcases List.mem_append.mp hm' with h1 | h1
          · exact hacc m' h1
          · simp only [List.mem_singleton] at h1
            omega
        · exact ih hacc h m hm
      · split at h
        · refine ih ?_ h m hm
          intro m' hm'
          simp at hm'
        · simp only [Option.some.injEq] at h
          rw [← h] at hm
          simp at hm

theorem matchLetterTokens_range (query source : List Char) (startPos : Nat) :
    ∀ m ∈ matchLetterTokens query source startPos, m < source.length := by
  intro m hm
  rw [matchLetterTokens] at hm
  rcases hgo : matchLetterTokensGo (matchLetterFuel source) (normalizeToken query) source
      startPos (normalizeToken query) startPos [] with _ | l
  · rw [hgo] at hm; simp at hm
  · rw [hgo] at hm
    exact matchLetterTokensGo_range (by intro x hx; simp at hx) hgo m hm

theorem substring_eq_bound {sn : List Char} {cursor t : Nat} {token : List Char}
    (h : substring sn cursor (cursor + t) = token) (hlen : token.length = t)
    (hc : cursor < sn.length) : cursor + t ≤ sn.length := by
  have hl := congrArg List.length h
  simp only [substring, List.length_drop, List.length_take] at hl
  omega

theorem matchTokensStrictGo_range {query source sourceNorm : List Char}
    (hsn : sourceNorm.length = source.length) :
    ∀ {fuel : Nat} {startPos : Nat} {queue : List (List Char)} {cursor : Nat} {acc l : List Nat},
      (∀ m ∈ acc, m < source.length) →
      matchTokensStrictGo fuel query source sourceNorm startPos queue cursor acc = some l →
      ∀ m ∈ l, m < source.length := by
  intro fuel
  induction fuel with
  | zero => intro _ _ _ _ _ _ h; simp [matchTokensStrictGo] at h
  | succ fuel ih =>
    intro startPos queue cursor acc l hacc h m hm
    simp only [matchTokensStrictGo] at h
    match queue with
    | [] =>
      simp only [Option.some.injEq] at h
      exact hacc m (h ▸ hm)
    | token :: qrest =>
      simp only at h
      split at h
      · rename_i hc
        split at h
        · rename_i hsub
          refine ih ?_ h m hm
          intro m' hm'
          rcases List.mem_append.mp hm' with h1 | h1
          · exact hacc m' h1
          · have hr := List.mem_range'_1.mp h1
            have hb : cursor + token.length ≤ sourceNorm.length :=
              substring_eq_bound hsub rfl (by omega)
            omega
        · exact ih hacc h m hm
      · split at h
        · simp only [Option.some.injEq] at h
          rw [← h] at hm
          exact matchLetterTokens_range query source _ m hm
        · simp only [Option.some.injEq] at h
          rw [← h] at hm
          simp at hm

theorem matchTokensStrict_range (query source : List Char) (startPos : Nat) :
    ∀ m ∈ matchTokensStrict query source startPos, m < source.length := by
  intro m hm
  rw [matchTokensStrict] at hm
  rcases hgo : matchTokensStrictGo (source.length + 2) query source
      (source.map Char.toLower) startPos (tokenize query) startPos [] with _ | l
  · rw [hgo] at hm; simp at hm
  · rw [hgo] at hm
    exact matchTokensStrictGo_range (List.length_map source _)
      (by intro x hx; simp at hx) hgo m hm

theorem lenientFindToken_some {sn : List Char} {cursor : Nat} :
    ∀ {toks : List (List Char)} {token : List Char},
      lenientFindToken sn cursor toks = some token →
      substring sn cursor (cursor + token.length) = token := by
  intro toks
  induction toks with
  | nil => intro token h; simp [lenientFindToken] at h
  | cons t ts ih =>
    intro token h
    simp only [lenientFindToken] at h
    split at h
    · rename_i hsub
      simp only [Option.some.injEq] at h
      rw [← h]
      exact hsub
    · exact ih h

theorem matchTokensLenientGo_range {queryTokens : List (List Char)}
    {source sourceNorm : List Char} (hsn : sourceNorm.length = source.length) :
    ∀ {fuel : Nat} {cursor : Nat} {acc l : List Nat},
      (∀ m ∈ acc, m < source.length) →
      matchTokensLenientGo fuel queryTokens source sourceNorm cursor acc = some l →
      ∀ m ∈ l, m < source.length := by
  intro fuel
  induction fuel with
  | zero => intro _ _ _ _ h; simp [matchTokensLenientGo] at h
  | succ fuel ih =>
    intro cursor acc l hacc h m hm
    simp only [matchTokensLenientGo] at h
    split at h
    · rename_i hc
      rcases hf : lenientFindToken sourceNorm cursor queryTokens with _ | token
      · rw [hf] at h
        exact ih hacc h m hm
      · rw [hf] at h
        refine ih ?_ h m hm
        intro m' hm'
        rcases List.mem_append.mp hm' with h1 | h1
        · exact hacc m' h1
        · have hr := List.mem_range'_1.mp h1
          have hb : cursor + token.length ≤ sourceNorm.length :=
            substring_eq_bound (lenientFindToken_some hf) rfl (by omega)
          omega
    · simp only [Option.some.injEq] at h
      exact hacc m (h ▸ hm)

theorem matchTokensLenient_range (query source : List Char) :
    ∀ m ∈ matchTokensLenient query source, m < source.length := by
  intro m hm
  rw [matchTokensLenient] at hm
  rcases hgo : matchTokensLenientGo (source.length + 2) (tokenize query) source
      (source.map Char.toLower) 0 [] with _ | l
  · rw [hgo] at hm; simp at hm
  · rw [hgo] at hm
    exact matchTokensLenientGo_range (List.length_map source _)
      (by intro x hx; simp at hx) hgo m hm

theorem mem_algorithms_matcher_range {a : MatchAlgorithm} (ha : a ∈ algorithms)
    (query source : List Char) : ∀ m ∈ a.matcher query source, m < source.length := by
  simp only [algorithms, List.mem_cons, List.not_mem_nil, or_false] at ha
  rcases ha with rfl | rfl | rfl | rfl
  · exact matchTokensStrict_range query source 0
  · exact matchLetterTokens_range query source 0
  · exact matchTokensLenient_range query source
  · exact matchWildcard_range query source

-- ## Fuel sufficiency: the transcribed loops always terminate

theorem nextTokenIdx_of_ge {s : List Char} {p : Nat} (h : s.length ≤ p) :
    nextTokenIdx s p = s.length := by
  unfold nextTokenIdx
  rw [List.drop_eq_nil_of_le h]
  simp [nextTokenIdxAux]

theorem min_next_bounds {s : List Char} {cursor : Nat} (hc : cursor < s.length) (t : Nat) :
    cursor < min (nextTokenIdx s (cursor + t)) (nextTokenIdx s cursor) ∧
      min (nextTokenIdx s (cursor + t)) (nextTokenIdx s cursor) ≤ s.length := by
  have h2 : cursor < nextTokenIdx s cursor := lt_nextTokenIdx hc
  have h2le : nextTokenIdx s cursor ≤ s.length := nextTokenIdx_le s cursor
  have h1 : cursor < nextTokenIdx s (cursor + t) := by
    rcases Nat.lt_or_ge s.length (cursor + t) with hgt | hle
    · rw [nextTokenIdx_of_ge (by omega)]
      omega
    · rcases Nat.eq_zero_or_pos t with rfl | ht
      · simpa using h2
      · have := le_nextTokenIdx hle
        omega
  exact ⟨lt_min h1 h2, le_trans (min_le_right _ _) h2le⟩

theorem matchTokensStrictGo_isSome {query source sourceNorm : List Char} {startPos : Nat} :
    ∀ {fuel : Nat} {queue : List (List Char)} {cursor : Nat} {acc : List Nat},
      source.length + 1 - cursor < fuel →
      (matchTokensStrictGo fuel query source sourceNorm startPos queue cursor acc).isSome := by
  intro fuel
  induction fuel with
  | zero => intro _ _ _ h; omega
  | succ fuel ih =>
    intro queue cursor acc h
    simp only [matchTokensStrictGo]
    match queue with
    | [] => simp
    | token :: qrest =>
      simp only
      split
      · rename_i hc
        split
        · apply ih
          have hb := min_next_bounds hc token.length
          omega
        · apply ih
          have h1 := lt_nextTokenIdx hc
          have h2 := nextTokenIdx_le source cursor
          omega
      · split
        · simp
        · simp

theorem matchLetterTokensGo_isSome {qnorm source : List Char} :
    ∀ {fuel startPos : Nat} {queue : List Char} {cursor : Nat} {acc : List Nat},
      (source.length + 1 - startPos) * (source.length + 2) +
        (source.length + 1 - cursor) + 1 ≤ fuel →
      (matchLetterTokensGo fuel qnorm source startPos queue cursor acc).isSome := by
  intro fuel
  induction fuel with
  | zero =>
    intro startPos queue cursor acc h
    exact absurd h (Nat.not_succ_le_zero _)
  | succ fuel ih =>
    intro startPos queue cursor acc h
    simp only [matchLetterTokensGo]
    match queue with
    | [] => simp
    | letter :: qrest =>
      simp only
      split
      · rename_i hc
        split
        · apply ih
          revert h
          generalize (source.length + 1 - startPos) * (source.length + 2) = X
          intro h
          omega
        · apply ih
          have h1 := lt_nextTokenIdx hc
          have h2 := nextTokenIdx_le source cursor
          revert h
          generalize (source.length + 1 - startPos) * (source.length + 2) = X
          intro h
          omega
      · rename_i hc
        split
        · rename_i hnp
          have hsp : startPos < source.length := by
            by_contra hge
            rw [nextTokenIdx_of_ge (by omega)] at hnp
            omega
          have h1 : startPos < nextTokenIdx source startPos := lt_nextTokenIdx hsp
          have h2 : nextTokenIdx source startPos ≤ source.length :=
            nextTokenIdx_le source startPos
          apply ih
          have e2 : (source.length + 1 - nextTokenIdx source startPos) * (source.length + 2) ≤
              (source.length - startPos) * (source.length + 2) :=
            Nat.mul_le_mul_right _ (by omega)
          have e3 : (source.length + 1 - startPos) * (source.length + 2) =
              (source.length - startPos) * (source.length + 2) + (source.length + 2) := by
            rw [← Nat.succ_mul]
            congr 1
            omega
          revert h e2 e3
          generalize (source.length + 1 - nextTokenIdx source startPos) *
            (source.length + 2) = A
          generalize (source.length - startPos) * (source.length + 2) = B
          generalize (source.length + 1 - startPos) * (source.length + 2) = C
          intro h e2 e3
          omega
        · simp

theorem matchLetterFuel_suffices (source : List Char) (startPos : Nat) :
    (source.length + 1 - startPos) * (source.length + 2) +
      (source.length + 1 - startPos) + 1 ≤ matchLetterFuel source := by
  simp only [matchLetterFuel]
  have e2 : (source.length + 1 - startPos) * (source.length + 2) ≤
      (source.length + 1) * (source.length + 2) :=
    Nat.mul_le_mul_right _ (by omega)
  have e3 : (source.length + 2) * (source.length + 2) =
      (source.length + 1) * (source.length + 2) + (source.length + 2) := by
    rw [← Nat.succ_mul]
  revert e2 e3
  generalize (source.length + 1 - startPos) * (source.length + 2) = A
  generalize (source.length + 1) * (source.length + 2) = B
  generalize (source.length + 2) * (source.length + 2) = C
  intro e2 e3
  omega

theorem matchTokensLenientGo_isSome {queryTokens : List (List Char)}
    {source sourceNorm : List Char} :
    ∀ {fuel : Nat} {cursor : Nat} {acc : List Nat},
      source.length + 1 - cursor < fuel →
      (matchTokensLenientGo fuel queryTokens source sourceNorm cursor acc).isSome := by
  intro fuel
  induction fuel with
  | zero => intro _ _ h; omega
  | succ fuel ih =>
    intro cursor acc h
    simp only [matchTokensLenientGo]
    split
    · rename_i hc
      rcases hf : lenientFindToken sourceNorm cursor queryTokens with _ | token
      · apply ih
        have h1 := lt_nextTokenIdx hc
        have h2 := nextTokenIdx_le source cursor
        omega
      · apply ih
        have hb := min_next_bounds hc token.length
        omega
    · simp

-- ## Scorer

theorem scoreFold_pos {l n : Nat} (hn : 0 < n) :
    ∀ {ms : List Nat} {acc : JsNum}, (∀ m ∈ ms, m < l) → 0 < acc.den → 0 < acc.num →
      0 < (List.foldl (fun sum m => sum.add (JsNum.divNat n (l + m))) acc ms).num ∧
        0 < (List.foldl (fun sum m => sum.add (JsNum.divNat n (l + m))) acc ms).den := by
  intro ms
  induction ms with
  | nil => intro acc _ hd hnum; exact ⟨hnum, hd⟩
  | cons m ms' ih =>
    intro acc hrange hd hnum
    simp only [List.foldl_cons]
    have hlm : 0 < l + m := by
      have := hrange m (List.mem_cons_self m ms')
      omega
    refine ih (fun x hx => hrange x (List.mem_cons_of_mem m hx)) ?_ ?_
    · simp only [JsNum.add, JsNum.divNat]
      positivity
    · simp only [JsNum.add, JsNum.divNat]
      have t1 : (0 : Int) < acc.num * ((l + m : Nat) : Int) := by
        apply mul_pos hnum
        exact_mod_cast hlm
      have t2 : (0 : Int) < (n : Int) * (acc.den : Int) := by
        apply mul_pos
        · exact_mod_cast hn
        · exact_mod_cast hd
      linarith

theorem fuzzyMatchScore_pos {source : List Char} {ms : List Nat} (hne : ms ≠ [])
    (hrange : ∀ m ∈ ms, m < source.length) :
    0 < (fuzzyMatchScore source ms).num ∧ 0 < (fuzzyMatchScore source ms).den := by
  match ms, hne with
  | m :: ms', _ =>
    simp only [fuzzyMatchScore, List.foldl_cons]
    have hlm : 0 < source.length + m := by
      have := hrange m (List.mem_cons_self m ms')
      omega
    refine scoreFold_pos (by simp) (fun x hx => hrange x (List.mem_cons_of_mem m hx)) ?_ ?_
    · simp only [JsNum.add, JsNum.ofNat, JsNum.divNat]
      positivity
    · simp only [JsNum.add, JsNum.ofNat, JsNum.divNat]
      simp

theorem scoreFold_den_pos {l n : Nat} :
    ∀ {ms : List Nat} {acc : JsNum}, (∀ m ∈ ms, m < l) → 0 < acc.den →
      0 < (List.foldl (fun sum m => sum.add (JsNum.divNat n (l + m))) acc ms).den := by
  intro ms
  induction ms with
  | nil => intro acc _ hd; exact hd
  | cons m ms' ih =>
    intro acc hrange hd
    simp only [List.foldl_cons]
    have hlm : 0 < l + m := by
      have := hrange m (List.mem_cons_self m ms')
      omega
    refine ih (fun x hx => hrange x (List.mem_cons_of_mem m hx)) ?_
    simp only [JsNum.add, JsNum.divNat]
    positivity

theorem fuzzyMatchScore_den_pos {source : List Char} {ms : List Nat}
    (hrange : ∀ m ∈ ms, m < source.length) : 0 < (fuzzyMatchScore source ms).den := by
  simp only [fuzzyMatchScore]
  exact scoreFold_den_pos hrange (by simp [JsNum.ofNat])

theorem scoreFold_toRat {l n : Nat} :
    ∀ {ms : List Nat} {acc : JsNum}, (∀ m ∈ ms, 0 < l + m) → 0 < acc.den →
      (List.foldl (fun sum m => sum.add (JsNum.divNat n (l + m))) acc ms).toRat =
        acc.toRat + ((ms.map fun (m : Nat) => (n : ℚ) / ((l : ℚ) + (m : ℚ))).sum) := by
  intro ms
  induction ms with
  | nil => intro acc _ _; simp
  | cons m ms' ih =>
    intro acc hrange hd
    have hlm : 0 < l + m := hrange m (List.mem_cons_self m ms')
    have hstep : (acc.add (JsNum.divNat n (l + m))).toRat =
        acc.toRat + (n : ℚ) / ((l : ℚ) + (m : ℚ)) := by
      rw [JsNum.toRat_add (by omega) (by simp [JsNum.divNat]; omega)]
      rw [JsNum.toRat_divNat]
      congr 1
      push_cast
      ring
    have hd' : 0 < (acc.add (JsNum.divNat n (l + m))).den := by
      simp only [JsNum.add, JsNum.divNat]
      positivity
    simp only [List.foldl_cons, List.map_cons, List.sum_cons]
    rw [ih (fun x hx => hrange x (List.mem_cons_of_mem m hx)) hd', hstep]
    ring

-- ## Tokens produced by the tokenizer

theorem mem_tokenizeGo {s : List Char} :
    ∀ {fuel idx : Nat} {l : List (List Char)} {t : List Char},
      tokenizeGo fuel s idx = some l → t ∈ l →
      ∃ u : List Char, u ≠ [] ∧ (∀ c ∈ u, isAlnumA c = true) ∧ t = normalizeToken u := by
  intro fuel
  induction fuel with
  | zero => intro _ _ _ h _; simp [tokenizeGo] at h
  | succ fuel ih =>
    intro idx l t h ht
    simp only [tokenizeGo] at h
    split at h
    · rcases hrest : tokenizeGo fuel s (nextTokenIdx s idx) with _ | rest
      · rw [hrest] at h; cases h
      · rw [hrest] at h
        simp only [Option.some.injEq] at h
        subst h
        by_cases h0 : 0 < (stripNonAlnum (substring s idx (nextTokenIdx s idx))).length
        · rw [if_pos h0] at ht
          rcases List.mem_cons.mp ht with h1 | h1
          · refine ⟨stripNonAlnum (substring s idx (nextTokenIdx s idx)), ?_, ?_, h1⟩
            · exact List.length_pos.mp h0
            · intro c hc
              exact List.of_mem_filter hc
          · exact ih hrest h1
        · rw [if_neg h0] at ht
          exact ih hrest ht
    · simp only [Option.some.injEq] at h
      subst h
      simp at ht

theorem normalizeToken_all_alnum {u : List Char} (hu : ∀ c ∈ u, isAlnumA c = true) :
    normalizeToken u = u.map Char.toLower := by
  unfold normalizeToken
  apply List.filter_eq_self.mpr
  intro c hc
  rcases List.mem_map.mp hc with ⟨c0, hc0, rfl⟩
  exact lowerDigit_isLetterOrDigitU (toLower_lowerDigit (hu c0 hc0))

theorem normalizeToken_chars {u : List Char} (hu : ∀ c ∈ u, isAlnumA c = true) :
    ∀ c ∈ normalizeToken u, isLowerDigit c = true := by
  rw [normalizeToken_all_alnum hu]
  intro c hc
  rcases List.mem_map.mp hc with ⟨c0, hc0, rfl⟩
  exact toLower_lowerDigit (hu c0 hc0)

theorem normalizeToken_ne_nil {u : List Char} (hu : ∀ c ∈ u, isAlnumA c = true)
    (hne : u ≠ []) : normalizeToken u ≠ [] := by
  rw [normalizeToken_all_alnum hu]
  simpa using hne

theorem map_toLower_fixed {t : List Char} (ht : ∀ c ∈ t, isLowerDigit c = true) :
    t.map Char.toLower = t := by
  induction t with
  | nil => rfl
  | cons c cs ih =>
    simp only [List.map_cons]
    rw [toLower_of_lowerDigit (ht c (List.mem_cons_self c cs)),
      ih fun x hx => ht x (List.mem_cons_of_mem c hx)]

theorem normalizeToken_fixed {t : List Char} (ht : ∀ c ∈ t, isLowerDigit c = true) :
    normalizeToken t = t := by
  unfold normalizeToken
  rw [map_toLower_fixed ht]
  apply List.filter_eq_self.mpr
  intro c hc
  exact lowerDigit_isLetterOrDigitU (ht c hc)

theorem runLen_all {p : Char → Bool} : ∀ {t : List Char}, (∀ c ∈ t, p c = true) →
    runLen p t = t.length := by
  intro t
  induction t with
  | nil => intro _; rfl
  | cons c cs ih =>
    intro h
    simp only [runLen, h c (List.mem_cons_self c cs), if_pos, List.length_cons]
    rw [ih fun x hx => h x (List.mem_cons_of_mem c hx)]

theorem nextTokenIdx_all_lowerDigit {t : List Char} (hne : t ≠ [])
    (ht : ∀ c ∈ t, isLowerDigit c = true) : nextTokenIdx t 0 = t.length := by
  unfold nextTokenIdx
  rw [List.drop_zero]
  match t, hne, ht with
  | c :: cs, _, ht =>
    have hcd : isLowerDigit c = true := ht c (List.mem_cons_self c cs)
    have halt1 : alt1Len (c :: cs) = none := by
      simp only [alt1Len]
      rw [if_neg (by simp [not_upperA_of_lowerDigit hcd])]
      rw [runLen_all ht, List.drop_length]
      simp [headIsUpper]
    have halt2 : alt2Len (c :: cs) = (c :: cs).length := by
      simp only [alt2Len]
      rw [runLen_all fun x hx => lowerDigit_isAlnumA (ht x hx), List.drop_length]
      simp [runLen]
    simp only [nextTokenIdxAux, lowerDigit_isAlnumA hcd, if_true, halt1, halt2]
    omega

theorem tokenize_all_lowerDigit_singleton {t : List Char} (hne : t ≠ [])
    (ht : ∀ c ∈ t, isLowerDigit c = true) : tokenize t = [t] := by
  have hlen : 0 < t.length := List.length_pos.mpr hne
  rcases Nat.exists_eq_succ_of_ne_zero (Nat.pos_iff_ne_zero.mp hlen) with ⟨k, hk⟩
  have hsub : substring t 0 t.length = t := by
    simp [substring]
  have hstrip : stripNonAlnum t = t :=
    List.filter_eq_self.mpr fun c hc => lowerDigit_isAlnumA (ht c hc)
  have hrec : tokenizeGo t.length t t.length = some [] := by
    rw [hk]
    simp [tokenizeGo, hk]
  unfold tokenize
  simp only [tokenizeGo, if_pos hlen, nextTokenIdx_all_lowerDigit hne ht, hsub, hstrip, hrec]
  simp only [if_pos hlen, Option.getD_some]
  rw [normalizeToken_fixed ht]

-- ## Degenerate inputs for the four matchers

theorem tokenize_nil : tokenize [] = [] := rfl

theorem matchTokensStrict_nil_query (source : List Char) (p : Nat) :
    matchTokensStrict [] source p = [] := by
  unfold matchTokensStrict
  rw [tokenize_nil]
  have : matchTokensStrictGo (source.length + 1 + 1) [] source (source.map Char.toLower)
      p [] p [] = some [] := rfl
  rw [show source.length + 2 = source.length + 1 + 1 from rfl, this]
  rfl

theorem matchLetterTokens_nil_query (source : List Char) (p : Nat) :
    matchLetterTokens [] source p = [] := by
  unfold matchLetterTokens
  have hnz : matchLetterFuel source ≠ 0 := by
    simp only [matchLetterFuel]
    positivity
  rcases Nat.exists_eq_succ_of_ne_zero hnz with ⟨k, hk⟩
  rw [hk]
  have hnorm : normalizeToken [] = [] := rfl
  rw [hnorm]
  rfl

theorem matchTokensLenientGo_nil_tokens {source sourceNorm : List Char} :
    ∀ {fuel cursor : Nat} {acc : List Nat}, source.length + 1 - cursor < fuel →
      matchTokensLenientGo fuel [] source sourceNorm cursor acc = some acc := by
  intro fuel
  induction fuel with
  | zero => intro _ _ h; omega
  | succ fuel ih =>
    intro cursor acc h
    simp only [matchTokensLenientGo]
    split
    · rename_i hc
      have hfind : lenientFindToken sourceNorm cursor [] = none := rfl
      rw [hfind]
      apply ih
      have h1 := lt_nextTokenIdx hc
      have h2 := nextTokenIdx_le source cursor
      omega
    · rfl

theorem matchTokensLenient_nil_query (source : List Char) :
    matchTokensLenient [] source = [] := by
  unfold matchTokensLenient
  rw [tokenize_nil]
  rw [matchTokensLenientGo_nil_tokens (by omega)]
  rfl

theorem matchWildcard_nil_query (source : List Char) : matchWildcard [] source = [] := rfl

theorem matchTokensStrict_nil_source (query : List Char) (p : Nat) :
    matchTokensStrict query [] p = [] := by
  unfold matchTokensStrict
  rcases htq : tokenize query with _ | ⟨t, ts⟩ <;>
    simp [matchTokensStrictGo, nextTokenIdx, nextTokenIdxAux]

theorem matchLetterTokens_nil_source (query : List Char) (p : Nat) :
    matchLetterTokens query [] p = [] := by
  unfold matchLetterTokens
  rcases hq : normalizeToken query with _ | ⟨c, cs⟩ <;>
    simp [matchLetterTokensGo, matchLetterFuel, nextTokenIdx, nextTokenIdxAux]

theorem matchTokensLenient_nil_source (query : List Char) :
    matchTokensLenient query [] = [] := by
  unfold matchTokensLenient
  simp [matchTokensLenientGo]

theorem matchWildcard_nil_source (query : List Char) : matchWildcard query [] = [] := by
  unfold matchWildcard
  rcases hq : (query.map Char.toLower).filter (fun c => !c.isWhitespace) with _ | ⟨c, cs⟩ <;>
    simp [hq, matchWildcardGo, indexOfFrom, indexOfFromGo]

-- ## Wrapper-level facts about the arbitrator

theorem mem_algorithms_bias_den_pos {opts : FuzzyMatchOptions} (hopts : opts.WF)
    {a : MatchAlgorithm} (ha : a ∈ algorithms) : 0 < (a.bias opts).den := by
  obtain ⟨h1, h2, h3, h4⟩ := hopts
  simp only [algorithms, List.mem_cons, List.not_mem_nil, or_false] at ha
  rcases ha with rfl | rfl | rfl | rfl
  · rcases hx : opts.biasTokensStrict with _ | x
    · simp [hx, JsNum.ofNat]
    · simpa [hx] using h1 x (by simp [hx, Option.mem_def])
  · rcases hx : opts.biasLetterTokens with _ | x
    · simp [hx, JsNum.ofNat]
    · simpa [hx] using h2 x (by simp [hx, Option.mem_def])
  · rcases hx : opts.biasTokensLenient with _ | x
    · simp [hx, JsNum.ofNat]
    · simpa [hx] using h3 x (by simp [hx, Option.mem_def])
  · rcases hx : opts.biasWildcard with _ | x
    · simp [hx, JsNum.ofNat]
    · simpa [hx] using h4 x (by simp [hx, Option.mem_def])

theorem mem_algorithms_bias_nonneg {opts : FuzzyMatchOptions} (hopts : opts.NonnegBiases)
    {a : MatchAlgorithm} (ha : a ∈ algorithms) : 0 ≤ (a.bias opts).num := by
  obtain ⟨h1, h2, h3, h4⟩ := hopts
  simp only [algorithms, List.mem_cons, List.not_mem_nil, or_false] at ha
  rcases ha with rfl | rfl | rfl | rfl
  · rcases hx : opts.biasTokensStrict with _ | x
    · simp [hx, JsNum.ofNat]
    · simpa [hx] using h1 x (by simp [hx, Option.mem_def])
  · rcases hx : opts.biasLetterTokens with _ | x
    · simp [hx, JsNum.ofNat]
    · simpa [hx] using h2 x (by simp [hx, Option.mem_def])
  · rcases hx : opts.biasTokensLenient with _ | x
    · simp [hx, JsNum.ofNat]
    · simpa [hx] using h3 x (by simp [hx, Option.mem_def])
  · rcases hx : opts.biasWildcard with _ | x
    · simp [hx, JsNum.ofNat]
    · simpa [hx] using h4 x (by simp [hx, Option.mem_def])

theorem fuzzyMatchLoop_score_spec {query source : List Char} {opts : FuzzyMatchOptions} :
    ∀ {L : List MatchAlgorithm},
      (∀ a ∈ L, ∀ m ∈ a.matcher query source, m < source.length) →
      (∀ a ∈ L, 0 < (a.bias opts).den) →
      0 < (fuzzyMatchLoop query source opts L).score.den ∧
        ((∀ a ∈ L, 0 ≤ (a.bias opts).num) →
          0 ≤ (fuzzyMatchLoop query source opts L).score.toRat ∧
            ((fuzzyMatchLoop query source opts L).score.toRat = 0 ↔
              (fuzzyMatchLoop query source opts L).matches = [])) := by
  intro L
  induction L with
  | nil =>
    intro _ _
    refine ⟨by simp [fuzzyMatchLoop, JsNum.ofNat], fun _ => ?_⟩
    simp [fuzzyMatchLoop, JsNum.toRat_ofNat]
  | cons a rest ih =>
    intro hrange hden
    by_cases hbeq : JsNum.beq (a.bias opts) (JsNum.ofNat 0) = true
    · have hloop : fuzzyMatchLoop query source opts (a :: rest) =
          fuzzyMatchLoop query source opts rest := by
        simp only [fuzzyMatchLoop]
        rw [if_pos hbeq]
      rw [hloop]
      obtain ⟨hd, hrest⟩ := ih (fun b hb => hrange b (List.mem_cons_of_mem a hb))
        (fun b hb => hden b (List.mem_cons_of_mem a hb))
      exact ⟨hd, fun hnn => hrest fun b hb => hnn b (List.mem_cons_of_mem a hb)⟩
    · by_cases hlen : 0 < (a.matcher query source).length
      · have hne : a.matcher query source ≠ [] := List.length_pos.mp hlen
        have hloop := fuzzyMatchLoop_select rest (Bool.eq_false_iff.mpr hbeq) hne
        rw [hloop]
        have hr := hrange a (List.mem_cons_self a rest)
        obtain ⟨hsnum, hsden⟩ := fuzzyMatchScore_pos hne hr
        have hbden : 0 < (a.bias opts).den := hden a (List.mem_cons_self a rest)
        have hdmul : 0 < ((fuzzyMatchScore source (a.matcher query source)).mul
            (a.bias opts)).den := by
          simp only [JsNum.mul]
          positivity
        refine ⟨hdmul, fun hnn => ?_⟩
        have hbnum : 0 < (a.bias opts).num := by
          have h0 : (a.bias opts).num ≠ 0 := by
            intro hc
            exact hbeq ((JsNum.beq_ofNat_zero_iff _).mpr hc)
          have := hnn a (List.mem_cons_self a rest)
          omega
        have hnum : 0 < ((fuzzyMatchScore source (a.matcher query source)).mul
            (a.bias opts)).num := by
          simp only [JsNum.mul]
          positivity
        have hpos := JsNum.toRat_pos hnum hdmul
        refine ⟨le_of_lt hpos, ?_⟩
        constructor
        · intro hc
          exact absurd hc (ne_of_gt hpos)
        · intro hc
          exact absurd hc hne
      · have hloop : fuzzyMatchLoop query source opts (a :: rest) =
            fuzzyMatchLoop query source opts rest := by
          simp only [fuzzyMatchLoop]
          rw [if_neg hbeq, if_neg hlen]
        rw [hloop]
        obtain ⟨hd, hrest⟩ := ih (fun b hb => hrange b (List.mem_cons_of_mem a hb))
          (fun b hb => hden b (List.mem_cons_of_mem a hb))
        exact ⟨hd, fun hnn => hrest fun b hb => hnn b (List.mem_cons_of_mem a hb)⟩

theorem fuzzyMatch_matches_range (query source : List Char) (opts : FuzzyMatchOptions) :
    ∀ m ∈ (fuzzyMatch query source opts).matches, m < source.length :=
  fuzzyMatchLoop_matches_range _
    fun a ha => mem_algorithms_matcher_range (mem_sortAlgs.mp ha) query source

theorem fuzzyMatch_score_den_pos {query source : List Char} {opts : FuzzyMatchOptions}
    (hwf : opts.WF) : 0 < (fuzzyMatch query source opts).score.den :=
  (fuzzyMatchLoop_score_spec
    (fun a ha => mem_algorithms_matcher_range (mem_sortAlgs.mp ha) query source)
    (fun a ha => mem_algorithms_bias_den_pos hwf (mem_sortAlgs.mp ha))).1

theorem fuzzyMatch_nil_query (source : List Char) (opts : FuzzyMatchOptions) :
    fuzzyMatch [] source opts = ⟨JsNum.ofNat 0, [], source⟩ := by
  apply fuzzyMatchLoop_all_skip
  intro a ha
  right
  have ha' := mem_sortAlgs.mp ha
  simp only [algorithms, List.mem_cons, List.not_mem_nil, or_false] at ha'
  rcases ha' with rfl | rfl | rfl | rfl
  · exact matchTokensStrict_nil_query source 0
  · exact matchLetterTokens_nil_query source 0
  · exact matchTokensLenient_nil_query source
  · exact matchWildcard_nil_query source

theorem fuzzyMatch_nil_source (query : List Char) (opts : FuzzyMatchOptions) :
    fuzzyMatch query [] opts = ⟨JsNum.ofNat 0, [], []⟩ := by
  apply fuzzyMatchLoop_all_skip
  intro a ha
  right
  have ha' := mem_sortAlgs.mp ha
  simp only [algorithms, List.mem_cons, List.not_mem_nil, or_false] at ha'
  rcases ha' with rfl | rfl | rfl | rfl
  · exact matchTokensStrict_nil_source query 0
  · exact matchLetterTokens_nil_source query 0
  · exact matchTokensLenient_nil_source query
  · exact matchWildcard_nil_source query

-- ## Sortedness of ranked results in terms of rational scores

theorem toRat_eq_zero_iff_beq {x : JsNum} (hd : 0 < x.den) :
    x.toRat = 0 ↔ JsNum.beq x (JsNum.ofNat 0) = true := by
  rw [JsNum.toRat_eq_zero_iff hd, JsNum.beq_ofNat_zero_iff]

theorem searchLe_implies_ranked {a b : FuzzySearchResult} (ha : 0 < a.score.den)
    (hb : 0 < b.score.den) (h : searchLe a b = true) : rankedBefore a b := by
  simp only [searchLe] at h
  by_cases hbeq : JsNum.beq a.score b.score = true
  · rw [if_pos hbeq] at h
    right
    refine ⟨((JsNum.beq_iff_toRat ha hb).mp hbeq).symm, ?_⟩
    simpa using h
  · rw [if_neg hbeq] at h
    left
    exact (JsNum.blt_iff_toRat hb ha).mp h

instance : IsTrans FuzzySearchResult rankedBefore := by
  constructor
  intro a b c h1 h2
  rcases h1 with h1 | ⟨h1e, h1l⟩
  · rcases h2 with h2 | ⟨h2e, h2l⟩
    · exact Or.inl (lt_trans h2 h1)
    · exact Or.inl (h2e ▸ h1)
  · rcases h2 with h2 | ⟨h2e, h2l⟩
    · exact Or.inl (h1e ▸ h2)
    · right
      refine ⟨h2e.trans h1e, ?_⟩
      by_contra hlex
      rw [Bool.not_eq_false] at hlex
      rcases lexLt_cases hlex with hc | hc
      · rw [h2l] at hc; cases hc
      · rw [h1l] at hc; cases hc

theorem chain_searchLe_ranked :
    ∀ {l : List FuzzySearchResult}, (∀ x ∈ l, 0 < x.score.den) →
      List.Chain' (fun a b => searchLe a b = true) l → List.Chain' rankedBefore l := by
  intro l
  induction l with
  | nil => intro _ _; simp
  | cons x rest ih =>
    intro hden hch
    cases rest with
    | nil => simp
    | cons y rest' =>
      rw [List.chain'_cons] at hch ⊢
      exact ⟨searchLe_implies_ranked (hden x (by simp)) (hden y (by simp)) hch.1,
        ih (fun z hz => hden z (List.mem_cons_of_mem x hz)) hch.2⟩

theorem fuzzySearchCollect_den_pos {query : List Char} {opts : FuzzyMatchOptions}
    (hwf : opts.WF) :
    ∀ {ss : List (List Char)} {i : Nat} {x : FuzzySearchResult},
      x ∈ fuzzySearchCollect query opts i ss → 0 < x.score.den := by
  intro ss
  induction ss with
  | nil => intro i x hx; simp [fuzzySearchCollect] at hx
  | cons s ss' ih =>
    intro i x hx
    simp only [fuzzySearchCollect] at hx
    split at hx
    · rcases List.mem_cons.mp hx with rfl | hx'
      · exact fuzzyMatch_score_den_pos hwf
      · exact ih hx'
    · exact ih hx

theorem fuzzySearchCollect_eq_spec {query : List Char} {opts : FuzzyMatchOptions}
    (hwf : opts.WF) :
    ∀ (ss : List (List Char)) (i : Nat),
      fuzzySearchCollect query opts i ss = (List.enumFrom i ss).filterMap fun p =>
        let m := fuzzyMatch query p.2 opts
        if 0 < m.score.toRat then some ⟨m.score, m.matches, p.2, p.1, m.highlight⟩
        else none := by
  intro ss
  induction ss with
  | nil => intro i; rfl
  | cons s ss' ih =>
    intro i
    have hcond : (JsNum.blt (JsNum.ofNat 0) (fuzzyMatch query s opts).score = true) ↔
        0 < (fuzzyMatch query s opts).score.toRat := by
      rw [JsNum.blt_iff_toRat (by simp [JsNum.ofNat]) (fuzzyMatch_score_den_pos hwf)]
      rw [JsNum.toRat_ofNat]
      simp
    simp only [fuzzySearchCollect, List.enumFrom, List.filterMap_cons]
    by_cases hpos : 0 < (fuzzyMatch query s opts).score.toRat
    · rw [if_pos (hcond.mpr hpos)]
      simp only [hpos, if_pos]
      rw [ih (i + 1)]
    · rw [if_neg (fun hc => hpos (hcond.mp hc))]
      simp only [hpos, if_neg, if_false]
      rw [ih (i + 1)]

theorem fuzzySearch_perm_spec {query : List Char} {sources : List (List Char)}
    {opts : FuzzyMatchOptions} (hwf : opts.WF) :
    List.Perm (fuzzySearch query sources opts) (fuzzySearchSpecResults query sources opts) := by
  have hspec : fuzzySearchSpecResults query sources opts =
      fuzzySearchCollect query opts 0 sources := by
    unfold fuzzySearchSpecResults
    rw [fuzzySearchCollect_eq_spec hwf sources 0]
    rfl
  rw [fuzzySearch, hspec]
  exact sortSearch_perm _

theorem fuzzySearch_pairwise {query : List Char} {sources : List (List Char)}
    {opts : FuzzyMatchOptions} (hwf : opts.WF) :
    List.Pairwise rankedBefore (fuzzySearch query sources opts) := by
  unfold fuzzySearch
  rw [← List.chain'_iff_pairwise]
  apply chain_searchLe_ranked
  · intro x hx
    have hx' := (sortSearch_perm _).mem_iff.mp hx
    exact fuzzySearchCollect_den_pos hwf hx'
  · exact sortSearch_chain _

-- ## The traversal order in terms of rational biases

theorem chain_algs_ranked {opts : FuzzyMatchOptions} :
    ∀ {l : List MatchAlgorithm}, (∀ x ∈ l, 0 < (x.bias opts).den) →
      List.Chain' (fun x y => JsNum.blt (x.bias opts) (y.bias opts) = false) l →
      List.Chain' (fun x y => (y.bias opts).toRat ≤ (x.bias opts).toRat) l := by
  intro l
  induction l with
  | nil => intro _ _; simp
  | cons x rest ih =>
    intro hden hch
    cases rest with
    | nil => simp
    | cons y rest' =>
      rw [List.chain'_cons] at hch ⊢
      refine ⟨?_, ih (fun z hz => hden z (List.mem_cons_of_mem x hz)) hch.2⟩
      exact (JsNum.blt_false_iff (hden x (by simp)) (hden y (by simp))).mp hch.1

theorem sortAlgs_pairwise_toRat {opts : FuzzyMatchOptions} (hwf : opts.WF) :
    List.Pairwise (fun x y => (y.bias opts).toRat ≤ (x.bias opts).toRat)
      (sortAlgs opts algorithms) := by
  haveI : IsTrans MatchAlgorithm
      (fun x y => (y.bias opts).toRat ≤ (x.bias opts).toRat) :=
    ⟨fun _ _ _ h1 h2 => le_trans h2 h1⟩
  rw [← List.chain'_iff_pairwise]
  apply chain_algs_ranked
  · intro x hx
    exact mem_algorithms_bias_den_pos hwf (mem_sortAlgs.mp hx)
  · exact sortAlgs_chain opts algorithms

theorem fuzzySearchCollect_matches_range {query : List Char} {opts : FuzzyMatchOptions} :
    ∀ {ss : List (List Char)} {i : Nat} {r : FuzzySearchResult},
      r ∈ fuzzySearchCollect query opts i ss → ∀ m ∈ r.matches, m < r.source.length := by
  intro ss
  induction ss with
  | nil => intro i r hr; simp [fuzzySearchCollect] at hr
  | cons s ss' ih =>
    intro i r hr
    simp only [fuzzySearchCollect] at hr
    split at hr
    · rcases List.mem_cons.mp hr with rfl | hr'
      · exact fuzzyMatch_matches_range query s opts
      · exact ih hr'
    · exact ih hr

-- # Claims

/-- C1 counterexample: the claim asserts that the match index list returned
by `fuzzyMatch` is always strictly increasing.  For query `"abcd cd"` and
source `"abCd"` the strict token matcher matches the query token `"abcd"`
across the source-token boundary of `"abCd"`, then moves the cursor back to
offset `2` (the `min` of the two `nextTokenIdx` calls) and matches the query
token `"cd"` over offsets `2, 3` a second time: the returned index list is
`[0, 1, 2, 3, 2, 3]`, which is not strictly increasing. -/
theorem C1_counterexample :
    (fuzzyMatch ("abcd cd".data) ("abCd".data) {}).matches = [0, 1, 2, 3, 2, 3] ∧
      ¬ List.Chain' (· < ·) (fuzzyMatch ("abcd cd".data) ("abCd".data) {}).matches := by
  constructor
  · decide
  · have h : (fuzzyMatch ("abcd cd".data) ("abCd".data) {}).matches =
        [0, 1, 2, 3, 2, 3] := by decide
    rw [h]
    intro hch
    simp [List.chain'_cons] at hch

/-- C1 (amended): every index in the match list returned by `fuzzyMatch`
(and carried into every `fuzzySearch` result) lies within
`[0, len(source))`; the list need not be strictly increasing. -/
theorem C1_matches_in_range (query source : List Char) (opts : FuzzyMatchOptions)
    (sources : List (List Char)) :
    (∀ m ∈ (fuzzyMatch query source opts).matches, m < source.length) ∧
      (∀ r ∈ fuzzySearch query sources opts, ∀ m ∈ r.matches, m < r.source.length) := by
  refine ⟨fuzzyMatch_matches_range query source opts, ?_⟩
  intro r hr
  have hr' := (sortSearch_perm _).mem_iff.mp hr
  exact fuzzySearchCollect_matches_range hr'

/-- Witness for C1 (amended) at query `"text"`, source `"getText"`. -/
theorem C1_matches_in_range_witness :
    (3 ∈ (fuzzyMatch "text".data "getText".data {}).matches) ∧ 3 < ("getText".data).length :=
  ⟨by decide,
    (C1_matches_in_range "text".data "getText".data {} []).1 3 (by decide)⟩

/-- C2 counterexample: the claim asserts `nextTokenIdx` is monotonically
non-decreasing in its start position.  On source `"ABcD"` the scan from
offset `0` matches the second regex alternative (the whole alphanumeric run,
end `4`), while the scan from offset `1` matches the first alternative (the
camelCase hump `"Bc"`, end `3`): `nextTokenIdx` decreases as the start
position grows from `0` to `1`. -/
theorem C2_counterexample :
    nextTokenIdx ("ABcD".data) 0 = 4 ∧ nextTokenIdx ("ABcD".data) 1 = 3 ∧
      ¬ (nextTokenIdx ("ABcD".data) 0 ≤ nextTokenIdx ("ABcD".data) 1) := by
  refine ⟨by decide, by decide, by decide⟩

/-- C2 (amended): for `0 ≤ startPos ≤ len(source)` the scanner's result
always lies in `[startPos, len(source)]`; it is not monotonically
non-decreasing in the start position. -/
theorem C2_range (s : List Char) (p : Nat) (h : p ≤ s.length) :
    p ≤ nextTokenIdx s p ∧ nextTokenIdx s p ≤ s.length :=
  ⟨le_nextTokenIdx h, nextTokenIdx_le s p⟩

/-- Witness for C2 (amended) at source `"getText"`, start position `1`. -/
theorem C2_range_witness :
    1 ≤ ("getText".data).length ∧
      (1 ≤ nextTokenIdx ("getText".data) 1 ∧
        nextTokenIdx ("getText".data) 1 ≤ ("getText".data).length) :=
  ⟨by decide, C2_range ("getText".data) 1 (by decide)⟩

/-- C3: `fuzzySearch` returns exactly the candidates whose score is positive
(a permutation of the filter-map over the enumerated candidate list, each
result carrying its original position), sorted primarily by score descending
with ties broken by the candidate string ascending; and for query `"text"`
against the nine-candidate list of the test suite it reproduces the fixed
documented ordering. -/
theorem C3_fuzzySearch_spec (query : List Char) (sources : List (List Char))
    (opts : FuzzyMatchOptions) (hwf : opts.WF) :
    List.Perm (fuzzySearch query sources opts) (fuzzySearchSpecResults query sources opts) ∧
      List.Pairwise rankedBefore (fuzzySearch query sources opts) ∧
      (fuzzySearch ("text".data) nineCandidates {}).map (fun r => r.source) =
        textExpectedRanking := by
  refine ⟨fuzzySearch_perm_spec hwf, fuzzySearch_pairwise hwf, ?_⟩
  decide

/-- Witness for C3 at query `"text"`, the nine-candidate list, and default
options. -/
theorem C3_fuzzySearch_spec_witness :
    ({} : FuzzyMatchOptions).WF ∧
      (List.Perm (fuzzySearch ("text".data) nineCandidates {})
          (fuzzySearchSpecResults ("text".data) nineCandidates {}) ∧
        List.Pairwise rankedBefore (fuzzySearch ("text".data) nineCandidates {}) ∧
        (fuzzySearch ("text".data) nineCandidates {}).map (fun r => r.source) =
          textExpectedRanking) :=
  ⟨by simp [FuzzyMatchOptions.WF],
    C3_fuzzySearch_spec ("text".data) nineCandidates {} (by simp [FuzzyMatchOptions.WF])⟩

/-- C4: under well-formed options the arbitrator traverses the four
algorithms in effective-bias-descending order (with the defaults
Strict 16, Letter-Token 8, Lenient 4, Wildcard 1 the traversal order is the
registry order); the first enabled algorithm with a non-empty index set
determines the result, whose score is its raw score multiplied by its own
bias (algorithms after it are never consulted); and if every enabled
algorithm returns empty the result is score `0`, empty match set, and the
unmodified source as highlight. -/
theorem C4_arbitration (query source : List Char) (opts : FuzzyMatchOptions)
    (hwf : opts.WF) :
    List.Pairwise (fun x y => (y.bias opts).toRat ≤ (x.bias opts).toRat)
        (sortAlgs opts algorithms) ∧
      sortAlgs ({} : FuzzyMatchOptions) algorithms = algorithms ∧
      algorithms.map (fun a => (a.bias ({} : FuzzyMatchOptions)).toRat) = [16, 8, 4, 1] ∧
      (∀ pre a post, sortAlgs opts algorithms = pre ++ a :: post →
        (∀ b ∈ pre, (b.bias opts).toRat = 0 ∨ b.matcher query source = []) →
        (a.bias opts).toRat ≠ 0 → a.matcher query source ≠ [] →
        fuzzyMatch query source opts =
          ⟨(fuzzyMatchScore source (a.matcher query source)).mul (a.bias opts),
           a.matcher query source,
           formatHighlight source (a.matcher query source) (opts.highlightTag.getD ['b'])⟩) ∧
      ((∀ a ∈ sortAlgs opts algorithms,
          (a.bias opts).toRat = 0 ∨ a.matcher query source = []) →
        fuzzyMatch query source opts = ⟨JsNum.ofNat 0, [], source⟩) := by
  have hmemden : ∀ b ∈ sortAlgs opts algorithms, 0 < (b.bias opts).den :=
    fun b hb => mem_algorithms_bias_den_pos hwf (mem_sortAlgs.mp hb)
  refine ⟨sortAlgs_pairwise_toRat hwf, rfl, ?_, ?_, ?_⟩
  · simp [algorithms, JsNum.toRat_ofNat]
  · intro pre a post hdec hpre hbias hne
    have haden : 0 < (a.bias opts).den := by
      apply hmemden a
      rw [hdec]
      exact List.mem_append_right _ (List.mem_cons_self a post)
    have hpre' : ∀ b ∈ pre,
        JsNum.beq (b.bias opts) (JsNum.ofNat 0) = true ∨ b.matcher query source = [] := by
      intro b hb
      rcases hpre b hb with h | h
      · left
        have hbden : 0 < (b.bias opts).den := by
          apply hmemden b
          rw [hdec]
          exact List.mem_append_left _ hb
        exact (toRat_eq_zero_iff_beq hbden).mp h
      · right; exact h
    have habeq : JsNum.beq (a.bias opts) (JsNum.ofNat 0) = false := by
      rw [Bool.eq_false_iff]
      intro hc
      exact hbias ((toRat_eq_zero_iff_beq haden).mpr hc)
    rw [fuzzyMatch, hdec, fuzzyMatchLoop_append_skip pre hpre',
      fuzzyMatchLoop_select post habeq hne]
  · intro hall
    rw [fuzzyMatch]
    apply fuzzyMatchLoop_all_skip
    intro b hb
    rcases hall b hb with h | h
    · left; exact (toRat_eq_zero_iff_beq (hmemden b hb)).mp h
    · right; exact h

/-- Witness for C4: no algorithm matches query `"q"` against source `"zz"`,
so the arbitration returns the no-match result. -/
theorem C4_arbitration_witness :
    fuzzyMatch ("q".data) ("zz".data) {} = ⟨JsNum.ofNat 0, [], "zz".data⟩ := by
  apply (C4_arbitration ("q".data) ("zz".data) {}
    (by simp [FuzzyMatchOptions.WF])).2.2.2.2
  intro a ha
  right
  have ha' : a ∈ algorithms := mem_sortAlgs.mp ha
  simp only [algorithms, List.mem_cons, List.not_mem_nil, or_false] at ha'
  rcases ha' with rfl | rfl | rfl | rfl <;> decide

/-- C5 counterexample: the claim asserts the score is non-negative for every
options record.  With a negative strict bias and the other algorithms
disabled, `fuzzyMatch "ab" "ab"` selects the strict matcher and returns
`(5/3) * (-1) = -5/3 < 0`. -/
theorem C5_counterexample :
    (fuzzyMatch ("ab".data) ("ab".data)
      { biasTokensStrict := some ⟨-1, 1⟩, biasLetterTokens := some (JsNum.ofNat 0),
        biasTokensLenient := some (JsNum.ofNat 0),
        biasWildcard := some (JsNum.ofNat 0) }).score.toRat < 0 := by
  have h : (fuzzyMatch ("ab".data) ("ab".data)
      { biasTokensStrict := some ⟨-1, 1⟩, biasLetterTokens := some (JsNum.ofNat 0),
        biasTokensLenient := some (JsNum.ofNat 0),
        biasWildcard := some (JsNum.ofNat 0) }).score = ⟨-10, 6⟩ := by decide
  rw [h]
  norm_num [JsNum.toRat]

/-- C5 (amended): for options whose supplied biases are well-formed and
non-negative, the score returned by `fuzzyMatch` is non-negative, and it is
`0` exactly when the returned match index set is empty. -/
theorem C5_score_spec (query source : List Char) (opts : FuzzyMatchOptions)
    (hwf : opts.WF) (hnn : opts.NonnegBiases) :
    0 ≤ (fuzzyMatch query source opts).score.toRat ∧
      ((fuzzyMatch query source opts).score.toRat = 0 ↔
        (fuzzyMatch query source opts).matches = []) :=
  (fuzzyMatchLoop_score_spec
    (fun a ha => mem_algorithms_matcher_range (mem_sortAlgs.mp ha) query source)
    (fun a ha => mem_algorithms_bias_den_pos hwf (mem_sortAlgs.mp ha))).2
    (fun a ha => mem_algorithms_bias_nonneg hnn (mem_sortAlgs.mp ha))

/-- Witness for C5 (amended) at query `"text"`, source `"getText"`, default
options. -/
theorem C5_score_spec_witness :
    ({} : FuzzyMatchOptions).WF ∧ ({} : FuzzyMatchOptions).NonnegBiases ∧
      (0 ≤ (fuzzyMatch "text".data "getText".data {}).score.toRat ∧
        ((fuzzyMatch "text".data "getText".data {}).score.toRat = 0 ↔
          (fuzzyMatch "text".data "getText".data {}).matches = [])) :=
  ⟨by simp [FuzzyMatchOptions.WF], by simp [FuzzyMatchOptions.NonnegBiases],
    C5_score_spec "text".data "getText".data {}
      (by simp [FuzzyMatchOptions.WF]) (by simp [FuzzyMatchOptions.NonnegBiases])⟩

/-- C6: an algorithm whose resolved bias is exactly `0` is skipped entirely:
whenever the three token-based matchers return empty and the wildcard bias
resolves to `0`, `fuzzyMatch` returns score `0` and an empty match set, even
if the wildcard matcher would have matched. -/
theorem C6_zero_bias_disables (query source : List Char) (opts : FuzzyMatchOptions)
    (hw : JsNum.beq (opts.biasWildcard.getD (JsNum.ofNat 1)) (JsNum.ofNat 0) = true)
    (hs : matchTokensStrict query source = [])
    (hl : matchLetterTokens query source = [])
    (hn : matchTokensLenient query source = []) :
    fuzzyMatch query source opts = ⟨JsNum.ofNat 0, [], source⟩ := by
  apply fuzzyMatchLoop_all_skip
  intro a ha
  have ha' : a ∈ algorithms := mem_sortAlgs.mp ha
  simp only [algorithms, List.mem_cons, List.not_mem_nil, or_false] at ha'
  rcases ha' with rfl | rfl | rfl | rfl
  · right; exact hs
  · right; exact hl
  · right; exact hn
  · left; exact hw

/-- Witness for C6: `"text"` against `"batchExtract"` is matched only by the
wildcard algorithm (the test suite's wildcard case), yet with
`biasWildcard = 0` the result is the no-match record. -/
theorem C6_zero_bias_disables_witness :
    matchWildcard ("text".data) ("batchExtract".data) ≠ [] ∧
      fuzzyMatch ("text".data) ("batchExtract".data)
          { biasWildcard := some (JsNum.ofNat 0) } =
        ⟨JsNum.ofNat 0, [], "batchExtract".data⟩ :=
  ⟨by decide,
    C6_zero_bias_disables ("text".data) ("batchExtract".data) _
      (by decide) (by decide) (by decide) (by decide)⟩

/-- C7: the core is total by construction (every embedded operation is a
total function), and for an empty query or an empty source `fuzzyMatch`
degrades to score `0`, an empty match index set, and the source itself as
highlight. -/
theorem C7_empty_inputs_degrade (query source : List Char) (opts : FuzzyMatchOptions) :
    fuzzyMatch [] source opts = ⟨JsNum.ofNat 0, [], source⟩ ∧
      fuzzyMatch query [] opts = ⟨JsNum.ofNat 0, [], []⟩ :=
  ⟨fuzzyMatch_nil_query source opts, fuzzyMatch_nil_source query opts⟩

/-- C8: the four matching algorithms are deterministic (they are functions)
and total: for every query, source, and start position the transcribed
loops of the strict, letter-token and lenient matchers, and of the
tokenizer, terminate within the wrappers' fuel (the wildcard matcher is
structurally recursive on the query).  In particular the self-retry
recursion of `matchLetterTokens` and the cursor-advancing loops always make
strict progress. -/
theorem C8_matchers_total (query source : List Char) (startPos : Nat) :
    (matchTokensStrictGo (source.length + 2) query source (source.map Char.toLower)
        startPos (tokenize query) startPos []).isSome ∧
      (matchLetterTokensGo (matchLetterFuel source) (normalizeToken query) source
        startPos (normalizeToken query) startPos []).isSome ∧
      (matchTokensLenientGo (source.length + 2) (tokenize query) source
        (source.map Char.toLower) 0 []).isSome ∧
      (tokenizeGo (query.length + 1) query 0).isSome := by
  refine ⟨?_, ?_, ?_, ?_⟩
  · exact matchTokensStrictGo_isSome (by omega)
  · exact matchLetterTokensGo_isSome (matchLetterFuel_suffices source startPos)
  · exact matchTokensLenientGo_isSome (by omega)
  · exact tokenizeGo_isSome query (query.length + 1) 0 (by omega)

/-- C9: `fuzzyMatchScore source matches` equals the sum over `m` in
`matches` of `count(matches) / (len(source) + m)` (as rational numbers); it
is `0` for an empty match list and strictly positive for every non-empty
match list of in-range indices. -/
theorem C9_score_formula (source : List Char) (ms : List Nat)
    (hrange : ∀ m ∈ ms, m < source.length) :
    (fuzzyMatchScore source ms).toRat =
        ((ms.map fun (m : Nat) =>
          (ms.length : ℚ) / ((source.length : ℚ) + (m : ℚ))).sum) ∧
      (ms = [] → (fuzzyMatchScore source ms).toRat = 0) ∧
      (ms ≠ [] → 0 < (fuzzyMatchScore source ms).toRat) := by
  refine ⟨?_, ?_, ?_⟩
  · simp only [fuzzyMatchScore]
    rw [scoreFold_toRat (fun m hm => by have := hrange m hm; omega)
      (by simp [JsNum.ofNat])]
    rw [JsNum.toRat_ofNat]
    simp
  · rintro rfl
    simp [fuzzyMatchScore, JsNum.toRat_ofNat]
  · intro hne
    obtain ⟨hnum, hden⟩ := fuzzyMatchScore_pos hne hrange
    exact JsNum.toRat_pos hnum hden

/-- Witness for C9 at source `"ab"`, match list `[0, 1]`. -/
theorem C9_score_formula_witness :
    (∀ m ∈ [0, 1], m < ("ab".data).length) ∧
      ((fuzzyMatchScore ("ab".data) [0, 1]).toRat =
          (([0, 1].map fun (m : Nat) =>
            (([0, 1] : List Nat).length : ℚ) / ((("ab".data).length : ℚ) + (m : ℚ))).sum) ∧
        ([0, 1] = ([] : List Nat) → (fuzzyMatchScore ("ab".data) [0, 1]).toRat = 0) ∧
        ([0, 1] ≠ ([] : List Nat) → 0 < (fuzzyMatchScore ("ab".data) [0, 1]).toRat)) :=
  ⟨by decide, C9_score_formula ("ab".data) [0, 1] (by decide)⟩

/-- C10: every element of `tokenize s` is a non-empty string of lowercase
ASCII letters and digits, hence a fixed point of `normalizeToken`, and
tokenizing it again yields exactly that single token. -/
theorem C10_tokens_normal (s t : List Char) (ht : t ∈ tokenize s) :
    t ≠ [] ∧ (∀ c ∈ t, isLowerDigit c = true) ∧ normalizeToken t = t ∧
      tokenize t = [t] := by
  have hgo : ∃ l, tokenizeGo (s.length + 1) s 0 = some l ∧ t ∈ l := by
    rcases h : tokenizeGo (s.length + 1) s 0 with _ | l
    · rw [tokenize, h] at ht; simp at ht
    · rw [tokenize, h] at ht; exact ⟨l, rfl, ht⟩
  obtain ⟨l, hl, htl⟩ := hgo
  obtain ⟨u, hune, hualnum, rfl⟩ := mem_tokenizeGo hl htl
  have hchars : ∀ c ∈ normalizeToken u, isLowerDigit c = true := normalizeToken_chars hualnum
  have hne : normalizeToken u ≠ [] := normalizeToken_ne_nil hualnum hune
  exact ⟨hne, hchars, normalizeToken_fixed hchars,
    tokenize_all_lowerDigit_singleton hne hchars⟩

/-- Witness for C10 at `tokenize "Hello World"` and its token `"hello"`. -/
theorem C10_tokens_normal_witness :
    ("hello".data ∈ tokenize ("Hello World".data)) ∧
      ("hello".data ≠ [] ∧ (∀ c ∈ "hello".data, isLowerDigit c = true) ∧
        normalizeToken ("hello".data) = "hello".data ∧
        tokenize ("hello".data) = ["hello".data]) :=
  ⟨by decide, C10_tokens_normal ("Hello World".data) ("hello".data) (by decide)⟩

end TokenizedSearch
